import Mathlib

/-!
# CC32xx coredump storage port and binary encoder: a shallow embedding

The flash-backed coredump storage of the CC3220SF port
(`platforms/simplelink/cc3220sf-launchxl/memfault_port/cc32xx_coredump_storage.c`)
is embedded as pure functions over an explicit flash state (namespace `Cc32xx`); the
binary encoder declared in `components/util/include/memfault/util/cbor.h` follows in
namespace `MemfaultCbor`.

* `uint32_t`, `size_t` and `unsigned long` are 32 bits wide on the CC32xx (an ARM
  Cortex-M4); they are natural numbers here and every addition that can wrap is
  written with an explicit `% 4294967296`.
* A buffer reached through a C pointer is a function from a byte index to a byte.
* The TI driverlib and TI-RTOS entry points the port calls (`FlashProgram`,
  `FlashErase`, `Hwi_disable`, `Hwi_enable`) are modelled as operations on `Flash`;
  the status each flash operation returns is an input (`Env.status`).
-/

namespace Cc32xx

/-- Everything the translation unit takes from outside: the two linker symbols that
delimit the storage region, what the flash controller answers, and the contents of
uninitialised stack slots. -/
structure Env where
  /-- address of the linker symbol `__coredump_storage_start__` -/
  coredump_storage_start : Nat
  /-- address of the linker symbol `__coredump_storage_end__` -/
  coredump_storage_end : Nat
  /-- status returned by the `k`-th flash operation (`FlashProgram` or `FlashErase`),
  counted from the start of the log; `0` is success -/
  status : Nat → Int
  /-- for a flash operation `k` that reports failure: the byte addresses of its range
  on which the operation nevertheless took effect -/
  landed : Nat → Nat → Bool
  /-- the indeterminate value of the uninitialised local `long rv` -/
  rv_indeterminate : Int
  /-- the indeterminate bytes of an uninitialised local `uint8_t word[4]` -/
  word_indeterminate : Nat → Nat

/-- One call of the flash controller, with the global interrupt-enable state `hwi` in
which the operation ran and the status `rv` it returned. -/
inductive FlashCall where
  /-- `FlashProgram(pulData, ulAddress, ulCount)`; `pulData` lists the `ulCount` bytes passed -/
  | program (ulAddress : Nat) (pulData : List Nat) (ulCount : Nat) (hwi : Bool) (rv : Int)
  /-- `FlashErase(ulAddress)` -/
  | erase (ulAddress : Nat) (hwi : Bool) (rv : Int)
  deriving DecidableEq, Repr

/-- The status a logged flash controller call returned. -/
def FlashCall.rv : FlashCall → Int
  | FlashCall.program _ _ _ _ rv => rv
  | FlashCall.erase _ _ rv => rv

/-- The machine state the port acts on. -/
structure Flash where
  /-- flash contents, one byte per address -/
  mem : Nat → Nat
  /-- global interrupt enable (`true`: interrupts enabled) -/
  hwi : Bool
  /-- flash controller calls so far, oldest first -/
  log : List FlashCall

/-- `#define LINKER_REGION_LEN(s, e) ((uint32_t)&e - (uint32_t)&s)` (32-bit subtraction). -/
def LINKER_REGION_LEN (s e : Nat) : Nat :=
  (e % 4294967296 + 4294967296 - s % 4294967296) % 4294967296

/-- `#define COREDUMP_FLASH_BASE ((uint32_t)&__coredump_storage_start__)` -/
def COREDUMP_FLASH_BASE (E : Env) : Nat :=
  E.coredump_storage_start % 4294967296

/-- `#define COREDUMP_STORAGE_SIZE LINKER_REGION_LEN(__coredump_storage_start__, __coredump_storage_end__)` -/
def COREDUMP_STORAGE_SIZE (E : Env) : Nat :=
  LINKER_REGION_LEN E.coredump_storage_start E.coredump_storage_end

/-- `#define COREDUMP_SECTOR_SIZE 2048` -/
def COREDUMP_SECTOR_SIZE : Nat := 2048

/-- Modelled from the spec: the macro `MEMFAULT_MIN` of `memfault/core/math.h`, which is
not among the sources; the smaller of its two arguments. -/
def MEMFAULT_MIN (a b : Nat) : Nat :=
  if a < b then a else b

/-- Modelled from the spec: the macro `MEMFAULT_FLOOR` of `memfault/core/math.h`, which is
not among the sources; the largest multiple of `align` not above `a` (the "largest
whole-word-count span"). -/
def MEMFAULT_FLOOR (a align : Nat) : Nat :=
  (a / align) * align

/-- `memcpy(&dst[at], src, n)`: the destination buffer afterwards. -/
def memcpy (dst : Nat → Nat) (dstAt : Nat) (src : Nat → Nat) (n : Nat) : Nat → Nat :=
  fun i => if dstAt ≤ i ∧ i < dstAt + n then src (i - dstAt) else dst i

/-- TI-RTOS `Hwi_disable()`: globally disables interrupts (the returned key is dropped
by every caller in this file). -/
def Hwi_disable (s : Flash) : Flash :=
  { s with hwi := false }

/-- TI-RTOS `Hwi_enable()`: globally enables interrupts. -/
def Hwi_enable (s : Flash) : Flash :=
  { s with hwi := true }

/-- TI driverlib `FlashProgram(pulData, ulAddress, ulCount)`. Programming can only clear
bits: a programmed byte becomes the bitwise AND of its old value and the new one. With
status `0` every byte of `[ulAddress, ulAddress + ulCount)` is programmed, with another
status only the bytes `Env.landed` selects. -/
def FlashProgram (E : Env) (pulData : Nat → Nat) (ulAddress ulCount : Nat) (s : Flash) :
    Int × Flash :=
  let k := s.log.length
  (E.status k,
   { mem := fun a =>
       if ulAddress ≤ a ∧ a < ulAddress + ulCount ∧ (E.status k = 0 ∨ E.landed k a = true)
       then s.mem a &&& pulData (a - ulAddress) else s.mem a
     hwi := s.hwi
     log := s.log ++
       [FlashCall.program ulAddress ((List.range ulCount).map pulData) ulCount s.hwi (E.status k)] })

/-- TI driverlib `FlashErase(ulAddress)`: erases the 2 kB flash sector that contains
`ulAddress`, every byte of it reading `0xFF` afterwards. With a status other than `0`
only the bytes `Env.landed` selects are erased. -/
def FlashErase (E : Env) (ulAddress : Nat) (s : Flash) : Int × Flash :=
  let k := s.log.length
  (E.status k,
   { mem := fun a =>
       if a / 2048 = ulAddress / 2048 ∧ (E.status k = 0 ∨ E.landed k a = true)
       then 255 else s.mem a
     hwi := s.hwi
     log := s.log ++ [FlashCall.erase ulAddress s.hwi (E.status k)] })

/-- `memfault_platform_coredump_storage_read(offset, data, read_len)`: the returned flag
and the contents of the buffer `data` afterwards (untouched when the read is refused). -/
def memfault_platform_coredump_storage_read (E : Env) (offset : Nat) (data : Nat → Nat)
    (read_len : Nat) (s : Flash) : Bool × (Nat → Nat) :=
  if (offset + read_len) % 4294967296 > COREDUMP_STORAGE_SIZE E then
    (false, data)
  else
    let read_ptr := (COREDUMP_FLASH_BASE E + offset) % 4294967296
    (true, memcpy data 0 (fun i => s.mem (read_ptr + i)) read_len)

/-- `prv_program(pulData, offset, ulCount)` -/
def prv_program (E : Env) (pulData : Nat → Nat) (offset ulCount : Nat) (s : Flash) :
    Int × Flash :=
  let ulAddress := (COREDUMP_FLASH_BASE E + offset) % 4294967296
  let s1 := Hwi_disable s
  let r := FlashProgram E pulData ulAddress ulCount s1
  let s2 := Hwi_enable r.2
  (r.1, s2)

/-- `prv_erase_sector(sector_offset)` -/
def prv_erase_sector (E : Env) (sector_offset : Nat) (s : Flash) : Int × Flash :=
  let s1 := Hwi_disable s
  let r := FlashErase E ((COREDUMP_FLASH_BASE E + sector_offset) % 4294967296) s1
  let s2 := Hwi_enable r.2
  (r.1, s2)

/-- The `for` loop of `memfault_platform_coredump_storage_erase` together with the
`return rv == 0` after it, entered with loop variable `i` and local `rv`. The result of
`prv_erase_sector` is dropped, as in the source, and `return rv;` in a function returning
`bool` yields `rv != 0`. The loop is reached only with `erase_size` a multiple of 2048
below `2^32`, so `i += COREDUMP_SECTOR_SIZE` cannot wrap. `fuel` bounds the number of
iterations; `erase_loop_fuel` shows that `erase_size` is always enough. -/
def erase_loop (E : Env) (offset erase_size : Nat) : Nat → Nat → Int → Flash → Bool × Flash
  | 0, _, rv, s => (decide (rv = 0), s)
  | fuel + 1, i, rv, s =>
    if i < erase_size then
      let r := prv_erase_sector E ((offset + i) % 4294967296) s
      if rv ≠ 0 then
        (decide (rv ≠ 0), r.2)
      else
        erase_loop E offset erase_size fuel (i + COREDUMP_SECTOR_SIZE) rv r.2
    else
      (decide (rv = 0), s)

/-- `memfault_platform_coredump_storage_erase(offset, erase_size)` -/
def memfault_platform_coredump_storage_erase (E : Env) (offset erase_size : Nat) (s : Flash) :
    Bool × Flash :=
  if (offset + erase_size) % 4294967296 > COREDUMP_STORAGE_SIZE E ∨
      erase_size % COREDUMP_SECTOR_SIZE ≠ 0 then
    (false, s)
  else
    let rv : Int := 0
    erase_loop E offset erase_size erase_size 0 rv s

/-- The body of `memfault_platform_coredump_storage_write` from the comment "The address
being written is word aligned but we have less than 4 bytes to write" to the end, entered
with the locals `rv`, `data_len`, `read_offset`, `curr_offset`. -/
def write_tail (E : Env) (data_ptr : Nat → Nat) (rv : Int)
    (data_len read_offset curr_offset : Nat) (s : Flash) : Bool × Flash :=
  if data_len ≠ 0 then
    let word := (memfault_platform_coredump_storage_read E curr_offset E.word_indeterminate 4 s).2
    let word := memcpy word 0 (fun i => data_ptr (read_offset + i)) data_len
    let r := prv_program E word curr_offset 4 s
    (decide (r.1 = 0), r.2)
  else
    (decide (rv = 0), s)

/-- The body of `memfault_platform_coredump_storage_write` from the comment "The address
being written to is now word aligned" on, entered with the locals `rv`, `data_len`,
`read_offset`, `curr_offset`. -/
def write_interior (E : Env) (data_ptr : Nat → Nat) (rv : Int)
    (data_len read_offset curr_offset : Nat) (s : Flash) : Bool × Flash :=
  let bytes_to_write := MEMFAULT_FLOOR data_len 4
  if bytes_to_write > 0 then
    let r := prv_program E (fun i => data_ptr (read_offset + i)) curr_offset bytes_to_write s
    if r.1 ≠ 0 then
      (false, r.2)
    else
      write_tail E data_ptr r.1 (data_len - bytes_to_write) (read_offset + bytes_to_write)
        ((curr_offset + bytes_to_write) % 4294967296) r.2
  else
    write_tail E data_ptr rv data_len read_offset curr_offset s

/-- `memfault_platform_coredump_storage_write(offset, data, data_len)`: the bounds check
and the unaligned head, then `write_interior`. -/
def memfault_platform_coredump_storage_write (E : Env) (offset : Nat) (data : Nat → Nat)
    (data_len : Nat) (s : Flash) : Bool × Flash :=
  if (offset + data_len) % 4294967296 > COREDUMP_STORAGE_SIZE E then
    (false, s)
  else
    let curr_offset := offset
    let data_ptr := data
    let read_offset := 0
    let rv := E.rv_indeterminate
    if offset % 4 ≠ 0 then
      let write_offset := offset % 4
      let word_aligned_offset := curr_offset - write_offset
      let word :=
        (memfault_platform_coredump_storage_read E word_aligned_offset E.word_indeterminate 4 s).2
      let length := MEMFAULT_MIN (4 - write_offset) data_len
      let word := memcpy word write_offset data_ptr length
      let r := prv_program E word word_aligned_offset 4 s
      if r.1 ≠ 0 then
        (false, r.2)
      else
        write_interior E data_ptr r.1 (data_len - length) (read_offset + length)
          ((curr_offset + length) % 4294967296) r.2
    else
      write_interior E data_ptr rv data_len read_offset curr_offset s

/-- `memfault_platform_coredump_storage_clear()`: writes the four bytes of
`clear_word = 0x0` at offset `0` and drops the result. -/
def memfault_platform_coredump_storage_clear (E : Env) (s : Flash) : Flash :=
  let clear_word : Nat → Nat := fun _ => 0
  (memfault_platform_coredump_storage_write E 0 clear_word 4 s).2

/-- The linker symbols are 32-bit addresses and the region ends no earlier than it starts. -/
def Env.WellFormed (E : Env) : Prop :=
  E.coredump_storage_start ≤ E.coredump_storage_end ∧ E.coredump_storage_end < 4294967296

instance (E : Env) : Decidable E.WellFormed := by
  unfold Env.WellFormed
  infer_instance

/-- What the steps of a write that remain when `n` bytes `data[ro ..]` are still to be
placed at flash address `lo` guarantee, `res` being their outcome from state `s`. -/
def WritePost (E : Env) (data : Nat → Nat) (lo n ro : Nat) (rv : Int) (s : Flash)
    (res : Bool × Flash) : Prop :=
  ∃ calls : List FlashCall,
    res.2.log = s.log ++ calls ∧
    (n = 0 → calls = []) ∧
    (∀ a, a < lo ∨ n = 0 → res.2.mem a = s.mem a) ∧
    ((∀ k, s.log.length ≤ k → E.status k = 0) →
      (∀ a, lo ≤ a → a < lo + n → res.2.mem a = s.mem a &&& data (ro + (a - lo))) ∧
      (n ≠ 0 ∨ rv = 0 → res.1 = true)) ∧
    (∀ pre c post, calls = pre ++ c :: post → c.rv ≠ 0 → res.1 = false ∧ post = []) ∧
    (∀ c ∈ calls, ∃ addr p, c = FlashCall.program addr p p.length false c.rv ∧ lo ≤ addr ∧
      (c.rv = 0 → ∀ i, i < p.length →
        res.2.mem (addr + i) = s.mem (addr + i) &&& p.getD i 0)) ∧
    (4 ∣ COREDUMP_STORAGE_SIZE E →
      (∀ a, ¬ (lo ≤ a ∧ a < lo + n) → res.2.mem a = s.mem a) ∧
      (∀ addr p cnt hw st, FlashCall.program addr p cnt hw st ∈ calls →
        ∀ i, i < cnt → ¬ (lo ≤ addr + i ∧ addr + i < lo + n) → p.getD i 0 = s.mem (addr + i)))

/-! ## Sample configurations -/

/-- A 4 kB storage region (two sectors) at flash address `0x01000000` whose flash
operations all succeed. -/
def envOk : Env where
  coredump_storage_start := 16777216
  coredump_storage_end := 16781312
  status := fun _ => 0
  landed := fun _ _ => false
  rv_indeterminate := 1
  word_indeterminate := fun _ => 0

/-- The region of `envOk` on a controller whose every operation fails without effect. -/
def envFail : Env where
  coredump_storage_start := 16777216
  coredump_storage_end := 16781312
  status := fun _ => -1
  landed := fun _ _ => false
  rv_indeterminate := 1
  word_indeterminate := fun _ => 0

/-- Fully erased flash, interrupts enabled, nothing logged. -/
def flashErased : Flash where
  mem := fun _ => 255
  hwi := true
  log := []

/-- Flash holding the low byte of each address, interrupts enabled, nothing logged. -/
def flashPattern : Flash where
  mem := fun a => a % 256
  hwi := true
  log := []

/-- The bytes `0xAA, 0xBB, 0xCC`. -/
def dataABC : Nat → Nat := fun i => [170, 187, 204].getD i 0

/-- The region of `envOk` on a controller whose second operation fails without effect. -/
def envFailSecond : Env where
  coredump_storage_start := 16777216
  coredump_storage_end := 16781312
  status := fun k => if k = 1 then -1 else 0
  landed := fun _ _ => false
  rv_indeterminate := 1
  word_indeterminate := fun _ => 0

/-- Fully erased flash with interrupts disabled, nothing logged. -/
def flashMasked : Flash where
  mem := fun _ => 255
  hwi := false
  log := []

/-- The bytes `1, 2, 3, ...`. -/
def dataCount : Nat → Nat := fun i => i + 1

/-- The number `h` of data bytes in the unaligned head of the write plan of a write of
`len` bytes at `offset`: `0` if `offset` is word-aligned, else `min (4 - r) len` for
`r = offset % 4`. -/
def plan_head (offset len : Nat) : Nat :=
  if offset % 4 = 0 then 0 else min (4 - offset % 4) len

/-- The number `m` of data bytes in the aligned interior of the write plan:
`4 * floor((len - h) / 4)`. -/
def plan_interior (offset len : Nat) : Nat :=
  4 * ((len - plan_head offset len) / 4)

/-- The number `t` of data bytes in the tail of the write plan: `len - h - m`. -/
def plan_tail (offset len : Nat) : Nat :=
  len - plan_head offset len - plan_interior offset len

/-- The write plan in words of the specification, to be compared with what
`memfault_platform_coredump_storage_write` does from state `s`: a 4-byte program at
`offset - r` iff `r ≠ 0`, the word read back there with `data[0..h)` spliced in at byte
`r`; an `m`-byte program at `offset + h` taking `data[h..h+m)` directly iff `m > 0`; a
4-byte program at `offset + h + m` iff `t > 0`, the word read back there with
`data[h+m..len)` spliced in at byte 0. Each call carries the status the controller
returns for it. -/
def write_plan (E : Env) (offset : Nat) (data : Nat → Nat) (len : Nat) (s : Flash) :
    List FlashCall :=
  let r := offset % 4
  let h := plan_head offset len
  let m := plan_interior offset len
  let t := plan_tail offset len
  let k := s.log.length
  let k1 := if r ≠ 0 then k + 1 else k
  let k2 := if m > 0 then k1 + 1 else k1
  (if r ≠ 0 then
    [FlashCall.program (COREDUMP_FLASH_BASE E + (offset - r))
      ((List.range 4).map (memcpy
        (memfault_platform_coredump_storage_read E (offset - r) E.word_indeterminate 4 s).2
        r data h))
      4 false (E.status k)]
  else []) ++
  ((if m > 0 then
    [FlashCall.program (COREDUMP_FLASH_BASE E + (offset + h))
      ((List.range m).map (fun i => data (h + i))) m false (E.status k1)]
  else []) ++
  (if t > 0 then
    [FlashCall.program (COREDUMP_FLASH_BASE E + (offset + h + m))
      ((List.range 4).map (memcpy
        (memfault_platform_coredump_storage_read E (offset + h + m) E.word_indeterminate 4 s).2
        0 (fun i => data (h + m + i)) t))
      4 false (E.status k2)]
  else []))

/-- The calls of a planned sequence that are issued: all up to and including the first
one that returns a non-zero status. -/
def issued : List FlashCall → List FlashCall
  | [] => []
  | c :: cs => if c.rv ≠ 0 then [c] else c :: issued cs

/-- A region of 4098 bytes, not a whole number of words, at flash address `0x01000000`;
every flash operation succeeds and uninitialised stack bytes hold `0x5A`. -/
def envOddCapacity : Env where
  coredump_storage_start := 16777216
  coredump_storage_end := 16781314
  status := fun _ => 0
  landed := fun _ _ => false
  rv_indeterminate := 1
  word_indeterminate := fun _ => 90

/-- The region and controller of `envOk` with the uninitialised `long rv` holding `0`. -/
def envOkRvZero : Env where
  coredump_storage_start := 16777216
  coredump_storage_end := 16781312
  status := fun _ => 0
  landed := fun _ _ => false
  rv_indeterminate := 0
  word_indeterminate := fun _ => 0

end Cc32xx

/-!
# The binary encoder of `memfault/util/cbor.h`

The sources hold the interface of the encoder (`cbor.h`: the session structure, the sink
callback type and the declarations of the operations) but not its implementation. The
operations are therefore modelled from the specification; each such definition says so.
-/

namespace MemfaultCbor

/-- The session context `struct MemfaultCborEncoder` of `memfault/util/cbor.h`. The
callback `write_cb` with its context `write_cb_ctx` is represented by `sink`: the
invocations of the callback so far, oldest first, each with its `offset` and payload. -/
structure MemfaultCborEncoder where
  /-- the field `compute_size_only` -/
  compute_size_only : Bool
  /-- the field `buf_len`: the capacity ceiling of a materializing session -/
  buf_len : Nat
  /-- the field `encoded_size`: the running count of encoded bytes -/
  encoded_size : Nat
  /-- invocations `write_cb(write_cb_ctx, offset, buf, buf_len)` made so far -/
  sink : List (Nat × List Nat)

/-- Modelled from the spec: `memfault_cbor_encoder_init`, of which the sources hold only the
declaration in `cbor.h`. It "begins a materializing session; resets the byte counter to
zero"; the sink has not been invoked yet. -/
def memfault_cbor_encoder_init (buf_len : Nat) : MemfaultCborEncoder where
  compute_size_only := false
  buf_len := buf_len
  encoded_size := 0
  sink := []

/-- Modelled from the spec: `memfault_cbor_encoder_size_only_init`, declared in `cbor.h`
only. It "begins a session that never calls the sink; only accounts bytes". -/
def memfault_cbor_encoder_size_only_init : MemfaultCborEncoder where
  compute_size_only := true
  buf_len := 0
  encoded_size := 0
  sink := []

/-- Modelled from the spec: `memfault_cbor_encoder_deinit`, declared in `cbor.h` only. It
"finalizes the session and returns the total number of bytes encoded (or that would have
been encoded)" and resets the internal state; what the sink received stays received. -/
def memfault_cbor_encoder_deinit (encoder : MemfaultCborEncoder) : Nat × MemfaultCborEncoder :=
  (encoder.encoded_size,
   { compute_size_only := false, buf_len := 0, encoded_size := 0, sink := encoder.sink })

/-- Modelled from the spec: the step in which every emitting operation ends, absent from
the sources. A size-only session only accounts the bytes and never fails on capacity; a
materializing session returns failure, with no side effect, "when the cumulative byte
count would exceed the session's capacity ceiling", and otherwise hands the bytes to the
sink at the offset of the running counter. -/
def emit (encoder : MemfaultCborEncoder) (bytes : List Nat) : Bool × MemfaultCborEncoder :=
  if encoder.compute_size_only then
    (true, { encoder with encoded_size := encoder.encoded_size + bytes.length })
  else if encoder.encoded_size + bytes.length > encoder.buf_len then
    (false, encoder)
  else
    (true, { encoder with
      encoded_size := encoder.encoded_size + bytes.length
      sink := encoder.sink ++ [(encoder.encoded_size, bytes)] })

/-- Modelled from the spec: the minimal-length integer rule, absent from the sources.
The header byte carries the major category in its top three bits (RFC 7049, which
`cbor.h` names); "values 0–23 encode as a single header byte carrying the value inline;
values requiring more range use the header's extended length marker followed by the
smallest of {1, 2, 4} extra bytes that can hold the magnitude, big-endian". -/
def encode_head (major value : Nat) : List Nat :=
  if value ≤ 23 then
    [major * 32 + value]
  else if value ≤ 255 then
    [major * 32 + 24, value]
  else if value ≤ 65535 then
    [major * 32 + 25, value / 256 % 256, value % 256]
  else
    [major * 32 + 26, value / 16777216 % 256, value / 65536 % 256, value / 256 % 256,
      value % 256]

/-- Modelled from the spec: `memfault_cbor_encode_unsigned_integer`, declared in `cbor.h`
only; emits the minimal-length representation in the unsigned-integer category. -/
def memfault_cbor_encode_unsigned_integer (encoder : MemfaultCborEncoder) (value : Nat) :
    Bool × MemfaultCborEncoder :=
  emit encoder (encode_head 0 value)

/-- Modelled from the spec: `memfault_cbor_encode_signed_integer`, declared in `cbor.h`
only. "A signed negative value `v` is transformed to magnitude `(-1 - v)` and tagged with
the negative-integer category; non-negative signed values delegate to the unsigned
path." -/
def memfault_cbor_encode_signed_integer (encoder : MemfaultCborEncoder) (value : Int) :
    Bool × MemfaultCborEncoder :=
  if value < 0 then
    emit encoder (encode_head 1 (-1 - value).toNat)
  else
    memfault_cbor_encode_unsigned_integer encoder value.toNat

/-- Modelled from the spec: `memfault_cbor_encode_byte_string`, declared in `cbor.h` only;
"a length header (same minimal-length rule, measured in bytes) followed by the raw
payload". -/
def memfault_cbor_encode_byte_string (encoder : MemfaultCborEncoder) (buf : List Nat) :
    Bool × MemfaultCborEncoder :=
  emit encoder (encode_head 2 buf.length ++ buf)

/-- Modelled from the spec: `memfault_cbor_encode_string`, declared in `cbor.h` only. "Text
input is measured by its terminator-delimited length; the terminator itself is never
written": `str` is the memory at the pointer, read up to the first zero byte. -/
def memfault_cbor_encode_string (encoder : MemfaultCborEncoder) (str : List Nat) :
    Bool × MemfaultCborEncoder :=
  emit encoder (encode_head 3 (str.takeWhile (fun b => b != 0)).length ++
    str.takeWhile (fun b => b != 0))

/-- Modelled from the spec: `memfault_cbor_encode_array_begin`, declared in `cbor.h` only;
the header of an array of `num_elements` items. -/
def memfault_cbor_encode_array_begin (encoder : MemfaultCborEncoder) (num_elements : Nat) :
    Bool × MemfaultCborEncoder :=
  emit encoder (encode_head 4 num_elements)

/-- Modelled from the spec: `memfault_cbor_encode_dictionary_begin`, declared in `cbor.h`
only; the header of a map of `num_elements` pairs. -/
def memfault_cbor_encode_dictionary_begin (encoder : MemfaultCborEncoder)
    (num_elements : Nat) : Bool × MemfaultCborEncoder :=
  emit encoder (encode_head 5 num_elements)

/-- One call of an emitting operation of `cbor.h`, with its arguments. -/
inductive CborCall where
  | unsigned_integer (value : Nat)
  | signed_integer (value : Int)
  | byte_string (buf : List Nat)
  | string (str : List Nat)
  | array_begin (num_elements : Nat)
  | dictionary_begin (num_elements : Nat)
  deriving DecidableEq, Repr

/-- Performs the call on a session. -/
def CborCall.run : CborCall → MemfaultCborEncoder → Bool × MemfaultCborEncoder
  | CborCall.unsigned_integer value, e => memfault_cbor_encode_unsigned_integer e value
  | CborCall.signed_integer value, e => memfault_cbor_encode_signed_integer e value
  | CborCall.byte_string buf, e => memfault_cbor_encode_byte_string e buf
  | CborCall.string str, e => memfault_cbor_encode_string e str
  | CborCall.array_begin n, e => memfault_cbor_encode_array_begin e n
  | CborCall.dictionary_begin n, e => memfault_cbor_encode_dictionary_begin e n

/-- The wire bytes of the item the call encodes. -/
def CborCall.encoding : CborCall → List Nat
  | CborCall.unsigned_integer value => encode_head 0 value
  | CborCall.signed_integer value =>
    if value < 0 then encode_head 1 (-1 - value).toNat else encode_head 0 value.toNat
  | CborCall.byte_string buf => encode_head 2 buf.length ++ buf
  | CborCall.string str =>
    encode_head 3 (str.takeWhile (fun b => b != 0)).length ++ str.takeWhile (fun b => b != 0)
  | CborCall.array_begin n => encode_head 4 n
  | CborCall.dictionary_begin n => encode_head 5 n

/-- Performs a sequence of calls in order, whatever each returns, and yields the session
reached. -/
def run_calls : List CborCall → MemfaultCborEncoder → MemfaultCborEncoder
  | [], e => e
  | c :: cs, e => run_calls cs (c.run e).2

/-- The cumulative encoded length of a sequence of calls. -/
def encoded_length : List CborCall → Nat
  | [] => 0
  | c :: cs => c.encoding.length + encoded_length cs

/-- The wire bytes of a sequence of calls. -/
def encoded_bytes : List CborCall → List Nat
  | [] => []
  | c :: cs => c.encoding ++ encoded_bytes cs

/-- All bytes the sink received, in the order of its invocations. -/
def sink_bytes : List (Nat × List Nat) → List Nat
  | [] => []
  | (_, buf) :: rest => buf ++ sink_bytes rest

/-- Whether the invocations of the sink are at sequential, contiguous offsets from
`start` on: each offset is `start` plus the lengths of the payloads before it. -/
def sink_sequential : Nat → List (Nat × List Nat) → Bool
  | _, [] => true
  | start, (offset, buf) :: rest =>
    decide (offset = start) && sink_sequential (start + buf.length) rest

/-- The number a list of bytes denotes, most significant byte first. -/
def big_endian : List Nat → Nat
  | [] => 0
  | b :: bs => b * 256 ^ bs.length + big_endian bs

end MemfaultCbor

namespace Cc32xx

/-! ## Basic facts about the flash calls and the erase loop -/

/-- The capacity is a 32-bit value. -/
theorem storage_size_lt (E : Env) : COREDUMP_STORAGE_SIZE E < 4294967296 := by
  unfold COREDUMP_STORAGE_SIZE LINKER_REGION_LEN; omega

/-- The base address is a 32-bit value. -/
theorem flash_base_lt (E : Env) : COREDUMP_FLASH_BASE E < 4294967296 := by
  unfold COREDUMP_FLASH_BASE; omega

/-- A well-formed region does not wrap around the end of the address space. -/
theorem region_fits (E : Env) (hwf : E.WellFormed) :
    COREDUMP_FLASH_BASE E + COREDUMP_STORAGE_SIZE E < 4294967296 := by
  obtain ⟨h1, h2⟩ := hwf
  unfold COREDUMP_FLASH_BASE COREDUMP_STORAGE_SIZE LINKER_REGION_LEN; omega

/-- `prv_program` returns the status of the flash operation. -/
theorem prv_program_status (E : Env) (p : Nat → Nat) (o c : Nat) (s : Flash) :
    (prv_program E p o c s).1 = E.status s.log.length := rfl

/-- `prv_program` logs one program call, run with interrupts disabled. -/
theorem prv_program_log (E : Env) (p : Nat → Nat) (o c : Nat) (s : Flash) :
    (prv_program E p o c s).2.log =
      s.log ++ [FlashCall.program ((COREDUMP_FLASH_BASE E + o) % 4294967296)
        ((List.range c).map p) c false (E.status s.log.length)] := rfl

/-- The flash contents after `prv_program`. -/
theorem prv_program_mem (E : Env) (p : Nat → Nat) (o c : Nat) (s : Flash) (a : Nat) :
    (prv_program E p o c s).2.mem a =
      if (COREDUMP_FLASH_BASE E + o) % 4294967296 ≤ a ∧
          a < (COREDUMP_FLASH_BASE E + o) % 4294967296 + c ∧
          (E.status s.log.length = 0 ∨ E.landed s.log.length a = true)
      then s.mem a &&& p (a - (COREDUMP_FLASH_BASE E + o) % 4294967296) else s.mem a := rfl

/-- The fuel of `erase_loop` is immaterial once it covers the remaining iterations;
the `erase_size` units passed by `memfault_platform_coredump_storage_erase` always do. -/
theorem erase_loop_fuel (E : Env) (offset erase_size : Nat) :
    ∀ (fuel fuel2 i : Nat) (rv : Int) (s : Flash),
      erase_size ≤ i + 2048 * fuel → erase_size ≤ i + 2048 * fuel2 →
      erase_loop E offset erase_size fuel i rv s = erase_loop E offset erase_size fuel2 i rv s := by
  intro fuel
  induction fuel with
  | zero =>
    intro fuel2 i rv s h1 _
    cases fuel2 with
    | zero => rfl
    | succ n =>
      have : ¬ i < erase_size := by omega
      simp [erase_loop, this]
  | succ n ih =>
    intro fuel2 i rv s h1 h2
    cases fuel2 with
    | zero =>
      have : ¬ i < erase_size := by omega
      simp [erase_loop, this]
    | succ m =>
      by_cases hi : i < erase_size
      · by_cases hrv : rv = 0
        · simp only [erase_loop, if_pos hi, hrv, ne_eq, not_true_eq_false, if_false]
          apply ih
          · simp only [COREDUMP_SECTOR_SIZE]; omega
          · simp only [COREDUMP_SECTOR_SIZE]; omega
        · simp [erase_loop, hi, hrv]
      · simp [erase_loop, hi]

/-- `prv_erase_sector` logs one erase call, run with interrupts disabled. -/
theorem prv_erase_sector_log (E : Env) (o : Nat) (s : Flash) :
    (prv_erase_sector E o s).2.log =
      s.log ++ [FlashCall.erase ((COREDUMP_FLASH_BASE E + o) % 4294967296) false
        (E.status s.log.length)] := rfl

/-- The flash contents after `prv_erase_sector`. -/
theorem prv_erase_sector_mem (E : Env) (o : Nat) (s : Flash) (a : Nat) :
    (prv_erase_sector E o s).2.mem a =
      if a / 2048 = (COREDUMP_FLASH_BASE E + o) % 4294967296 / 2048 ∧
          (E.status s.log.length = 0 ∨ E.landed s.log.length a = true)
      then 255 else s.mem a := rfl

/-- An accepted read returns the flash bytes at `COREDUMP_FLASH_BASE + offset` on. -/
theorem read_in_bounds (E : Env) (hwf : E.WellFormed) (offset : Nat) (buf : Nat → Nat)
    (read_len : Nat) (s : Flash) (hb : offset + read_len ≤ COREDUMP_STORAGE_SIZE E) :
    (memfault_platform_coredump_storage_read E offset buf read_len s).1 = true ∧
    ∀ i, i < read_len →
      (memfault_platform_coredump_storage_read E offset buf read_len s).2 i =
        s.mem (COREDUMP_FLASH_BASE E + offset + i) := by
  have hfit := region_fits E hwf
  have hnb : ¬ ((offset + read_len) % 4294967296 > COREDUMP_STORAGE_SIZE E) := by omega
  have haddr : (COREDUMP_FLASH_BASE E + offset) % 4294967296 = COREDUMP_FLASH_BASE E + offset := by
    omega
  refine ⟨by simp [memfault_platform_coredump_storage_read, hnb], ?_⟩
  intro i hi
  simp [memfault_platform_coredump_storage_read, hnb, memcpy, hi, haddr]

/-- With `rv = 0` on entry the erase loop runs to its end and reports success, whatever
the sector erases returned. -/
theorem erase_loop_result (E : Env) (offset erase_size : Nat) :
    ∀ (fuel i : Nat) (s : Flash), (erase_loop E offset erase_size fuel i 0 s).1 = true := by
  intro fuel
  induction fuel with
  | zero => intro i s; simp [erase_loop]
  | succ n ih =>
    intro i s
    by_cases hi : i < erase_size
    · simp only [erase_loop, if_pos hi, ne_eq, not_true_eq_false, if_false]
      exact ih _ _
    · simp [erase_loop, hi]

/-- When every sector erase succeeds, the erase loop leaves `0xFF` in every byte from the
(sector-aligned) address of the current sector to the end of the requested range, and
keeps bytes that already read `0xFF`. -/
theorem erase_loop_mem (E : Env) (offset erase_size : Nat)
    (hfit : COREDUMP_FLASH_BASE E + offset + erase_size < 4294967296)
    (hsz : erase_size % 2048 = 0) (hal : (COREDUMP_FLASH_BASE E + offset) % 2048 = 0) :
    ∀ (fuel i : Nat) (s : Flash),
      erase_size ≤ i + 2048 * fuel → i % 2048 = 0 →
      (∀ k, s.log.length ≤ k → E.status k = 0) →
      ∀ a, (COREDUMP_FLASH_BASE E + offset + i ≤ a ∧
              a < COREDUMP_FLASH_BASE E + offset + erase_size) ∨ s.mem a = 255 →
        (erase_loop E offset erase_size fuel i 0 s).2.mem a = 255 := by
  have hB := flash_base_lt E
  intro fuel
  induction fuel with
  | zero =>
    intro i s hf hi hok a ha
    simp only [erase_loop]
    rcases ha with ha | ha
    · omega
    · exact ha
  | succ n ih =>
    intro i s hf hi hok a ha
    by_cases hlt : i < erase_size
    · simp only [erase_loop, if_pos hlt, ne_eq, not_true_eq_false, if_false, COREDUMP_SECTOR_SIZE]
      have h1 : (offset + i) % 4294967296 = offset + i := by omega
      have h2 : (COREDUMP_FLASH_BASE E + (offset + i)) % 4294967296 =
          COREDUMP_FLASH_BASE E + offset + i := by omega
      apply ih (i + 2048) _ (by omega) (by omega)
      · intro k hk
        apply hok
        rw [prv_erase_sector_log] at hk
        simp at hk
        omega
      · by_cases hin : COREDUMP_FLASH_BASE E + offset + (i + 2048) ≤ a ∧
            a < COREDUMP_FLASH_BASE E + offset + erase_size
        · exact Or.inl hin
        · right
          rw [prv_erase_sector_mem, h1, h2]
          have hst : E.status s.log.length = 0 := hok _ (Nat.le_refl _)
          rcases ha with ha | ha
          · have : a / 2048 = (COREDUMP_FLASH_BASE E + offset + i) / 2048 := by omega
            simp [this, hst]
          · split_ifs
            · rfl
            · exact ha
    · simp only [erase_loop, if_neg hlt]
      rcases ha with ha | ha
      · omega
      · exact ha

/-! ## The three steps of a write -/

/-- Byte `i` of a logged payload is byte `i` of the buffer passed. -/
theorem payload_getD (f : Nat → Nat) (c i : Nat) (h : i < c) :
    ((List.range c).map f).getD i 0 = f i := by
  simp [List.getD_eq_getElem?_getD, List.getElem?_map, List.getElem?_range h]

/-- The tail step meets `WritePost`. -/
theorem write_tail_post (E : Env) (data : Nat → Nat) (rv : Int) (n ro c : Nat) (s : Flash)
    (hfit : COREDUMP_FLASH_BASE E + COREDUMP_STORAGE_SIZE E < 4294967296)
    (hb : c + n ≤ COREDUMP_STORAGE_SIZE E) (hn : n < 4) (hc : n ≠ 0 → 4 ∣ c) :
    WritePost E data (COREDUMP_FLASH_BASE E + c) n ro rv s (write_tail E data rv n ro c s) := by
  by_cases h0 : n = 0
  · subst h0
    refine ⟨[], by simp [write_tail], fun _ => rfl, by simp [write_tail], ?_, ?_, by simp, ?_⟩
    · intro _
      refine ⟨fun a h1 h2 => by omega, ?_⟩
      intro h
      rcases h with h | h
      · exact absurd rfl h
      · simp [write_tail, h]
    · intro pre c post h
      simp at h
    · intro _
      simp [write_tail]
  · have haddr : (COREDUMP_FLASH_BASE E + c) % 4294967296 = COREDUMP_FLASH_BASE E + c := by omega
    simp only [write_tail, if_pos h0, ne_eq, not_false_eq_true]
    refine ⟨_, prv_program_log _ _ _ _ _, fun h => absurd h h0, ?_, ?_, ?_, ?_, ?_⟩
    · intro a ha
      rw [prv_program_mem, haddr]
      have : ¬ COREDUMP_FLASH_BASE E + c ≤ a := by omega
      simp [this]
    · intro hok
      have hst : E.status s.log.length = 0 := hok _ (Nat.le_refl _)
      refine ⟨?_, fun _ => by simp [prv_program_status, hst]⟩
      intro a h1 h2
      rw [prv_program_mem, haddr]
      have h3 : a < COREDUMP_FLASH_BASE E + c + 4 := by omega
      have h4 : a - (COREDUMP_FLASH_BASE E + c) < n := by omega
      simp [h1, h3, hst, memcpy, h4]
    · intro pre c1 post hsplit hrv
      rw [haddr] at hsplit
      rcases pre with _ | ⟨x, pre⟩
      · simp at hsplit
        obtain ⟨hc1, hpost⟩ := hsplit
        subst hc1
        simp only [FlashCall.rv] at hrv
        simp [prv_program_status, hrv, hpost]
      · simp at hsplit
    · intro c1 hc1
      rw [haddr] at hc1
      simp only [List.mem_singleton] at hc1
      subst hc1
      refine ⟨_, List.map _ (List.range 4), rfl, Nat.le_refl _, ?_⟩
      · intro hst i hi
        simp only [FlashCall.rv] at hst
        simp only [List.length_map, List.length_range] at hi
        rw [prv_program_mem, haddr, payload_getD _ _ _ hi]
        simp [hst, hi]
    · intro h4
      obtain ⟨q, hq⟩ := h4
      obtain ⟨q2, hq2⟩ := hc h0
      have hs := storage_size_lt E
      have hnb : ¬ ((c + 4) % 4294967296 > COREDUMP_STORAGE_SIZE E) := by omega
      have hword : ∀ i, i < 4 → ¬ i < n →
          memcpy (memfault_platform_coredump_storage_read E c E.word_indeterminate 4 s).2 0
            (fun i => data (ro + i)) n i = s.mem (COREDUMP_FLASH_BASE E + c + i) := by
        intro i hi hin
        simp [memcpy, memfault_platform_coredump_storage_read, hnb, hi, hin, haddr]
      constructor
      · intro a ha
        rw [prv_program_mem, haddr]
        split_ifs with hcond
        · have h5 : a - (COREDUMP_FLASH_BASE E + c) < 4 := by omega
          have h6 : ¬ a - (COREDUMP_FLASH_BASE E + c) < n := by omega
          rw [hword _ h5 h6]
          have : COREDUMP_FLASH_BASE E + c + (a - (COREDUMP_FLASH_BASE E + c)) = a := by omega
          rw [this, Nat.and_self]
        · rfl
      · intro addr p cnt hw st hmem i hi hout
        rw [haddr] at hmem
        simp only [List.mem_singleton, FlashCall.program.injEq] at hmem
        obtain ⟨ha, hp, hcnt, -, -⟩ := hmem
        subst ha hp hcnt
        rw [payload_getD _ _ _ hi]
        exact hword i hi (by omega)

/-- A program call leaves every byte outside its range alone. -/
theorem prv_program_mem_outside (E : Env) (p : Nat → Nat) (o c : Nat) (s : Flash) (a : Nat)
    (h : ¬ ((COREDUMP_FLASH_BASE E + o) % 4294967296 ≤ a ∧
      a < (COREDUMP_FLASH_BASE E + o) % 4294967296 + c)) :
    (prv_program E p o c s).2.mem a = s.mem a := by
  rw [prv_program_mem]
  split_ifs with h1
  · exact absurd ⟨h1.1, h1.2.1⟩ h
  · rfl

/-- A successful program call ANDs its payload into every byte of its range. -/
theorem prv_program_mem_inside (E : Env) (p : Nat → Nat) (o c : Nat) (s : Flash) (a : Nat)
    (hst : E.status s.log.length = 0)
    (h1 : (COREDUMP_FLASH_BASE E + o) % 4294967296 ≤ a)
    (h2 : a < (COREDUMP_FLASH_BASE E + o) % 4294967296 + c) :
    (prv_program E p o c s).2.mem a =
      s.mem a &&& p (a - (COREDUMP_FLASH_BASE E + o) % 4294967296) := by
  rw [prv_program_mem]
  simp [h1, h2, hst]

/-- The interior step followed by the tail step meets `WritePost`. -/
theorem write_interior_post (E : Env) (data : Nat → Nat) (rv : Int) (n ro c : Nat) (s : Flash)
    (hfit : COREDUMP_FLASH_BASE E + COREDUMP_STORAGE_SIZE E < 4294967296)
    (hb : c + n ≤ COREDUMP_STORAGE_SIZE E) (hc : n ≠ 0 → 4 ∣ c) :
    WritePost E data (COREDUMP_FLASH_BASE E + c) n ro rv s
      (write_interior E data rv n ro c s) := by
  by_cases hm : MEMFAULT_FLOOR n 4 > 0
  · -- one batched program call, then the tail
    have hmn : MEMFAULT_FLOOR n 4 ≤ n ∧ n - MEMFAULT_FLOOR n 4 < 4 ∧ MEMFAULT_FLOOR n 4 % 4 = 0 := by
      unfold MEMFAULT_FLOOR; omega
    obtain ⟨hm1, hm2, hm3⟩ := hmn
    have hn0 : n ≠ 0 := by omega
    obtain ⟨q, hq⟩ := hc hn0
    have haddr : (COREDUMP_FLASH_BASE E + c) % 4294967296 = COREDUMP_FLASH_BASE E + c := by omega
    have hcur : (c + MEMFAULT_FLOOR n 4) % 4294967296 = c + MEMFAULT_FLOOR n 4 := by omega
    by_cases hst : E.status s.log.length = 0
    · have hnot : ¬ (prv_program E (fun i => data (ro + i)) c (MEMFAULT_FLOOR n 4) s).1 ≠ 0 := by
        simp [prv_program_status, hst]
      simp only [write_interior, if_pos hm, if_neg hnot, hcur]
      obtain ⟨calls, hlog, -, hlow, heff, habort, hcalls, hword⟩ :=
        write_tail_post E data (prv_program E (fun i => data (ro + i)) c (MEMFAULT_FLOOR n 4) s).1
          (n - MEMFAULT_FLOOR n 4) (ro + MEMFAULT_FLOOR n 4) (c + MEMFAULT_FLOOR n 4)
          (prv_program E (fun i => data (ro + i)) c (MEMFAULT_FLOOR n 4) s).2
          hfit (by omega) hm2 (fun _ => by omega)
      have hs1 : ∀ a, ¬ (COREDUMP_FLASH_BASE E + c ≤ a ∧
            a < COREDUMP_FLASH_BASE E + c + MEMFAULT_FLOOR n 4) →
          (prv_program E (fun i => data (ro + i)) c (MEMFAULT_FLOOR n 4) s).2.mem a = s.mem a := by
        intro a ha
        apply prv_program_mem_outside
        rw [haddr]; exact ha
      have hs2 : ∀ a, COREDUMP_FLASH_BASE E + c ≤ a →
            a < COREDUMP_FLASH_BASE E + c + MEMFAULT_FLOOR n 4 →
          (prv_program E (fun i => data (ro + i)) c (MEMFAULT_FLOOR n 4) s).2.mem a =
            s.mem a &&& data (ro + (a - (COREDUMP_FLASH_BASE E + c))) := by
        intro a h1 h2
        rw [prv_program_mem_inside E _ _ _ _ _ hst (by omega) (by omega), haddr]
      refine ⟨FlashCall.program (COREDUMP_FLASH_BASE E + c)
        ((List.range (MEMFAULT_FLOOR n 4)).map (fun i => data (ro + i))) (MEMFAULT_FLOOR n 4)
        false (E.status s.log.length) :: calls, ?_, fun h => absurd h hn0, ?_, ?_, ?_, ?_, ?_⟩
      · rw [hlog, prv_program_log, haddr, List.append_assoc]; rfl
      · intro a ha
        rw [hlow a (by omega), hs1 a (by omega)]
      · intro hok
        have hok2 : ∀ k, (prv_program E (fun i => data (ro + i)) c (MEMFAULT_FLOOR n 4)
            s).2.log.length ≤ k → E.status k = 0 := by
          intro k hk
          apply hok
          rw [prv_program_log] at hk
          simp at hk
          omega
        obtain ⟨he1, he2⟩ := heff hok2
        refine ⟨?_, fun _ => he2 (Or.inr (by rw [prv_program_status, hst]))⟩
        intro a h1 h2
        by_cases hin : a < COREDUMP_FLASH_BASE E + c + MEMFAULT_FLOOR n 4
        · rw [hlow a (by omega), hs2 a h1 hin]
        · rw [he1 a (by omega) (by omega), hs1 a (by omega)]
          congr 2
          omega
      · intro pre c1 post hsplit hrv
        rcases pre with _ | ⟨x, pre⟩
        · simp only [List.nil_append, List.cons.injEq] at hsplit
          obtain ⟨hc1, -⟩ := hsplit
          subst hc1
          simp only [FlashCall.rv] at hrv
          exact absurd hst hrv
        · simp only [List.cons_append, List.cons.injEq] at hsplit
          exact habort pre c1 post hsplit.2 hrv
      · intro c1 hc1
        rcases List.mem_cons.mp hc1 with h | h
        · subst h
          refine ⟨_, List.map (fun i => data (ro + i)) (List.range (MEMFAULT_FLOOR n 4)), ?_, Nat.le_refl _, ?_⟩
          · simp [FlashCall.rv]
          · intro _ i hi
            simp only [List.length_map, List.length_range] at hi
            rw [payload_getD _ _ _ hi, hlow _ (by omega), hs2 _ (by omega) (by omega)]
            congr 2
            omega
        · obtain ⟨addr, p, hshape, hge, hpers⟩ := hcalls c1 h
          refine ⟨addr, p, hshape, by omega, ?_⟩
          intro h0 i hi
          rw [hpers h0 i hi, hs1 _ (by omega)]
      · intro h4
        obtain ⟨hframe, hread⟩ := hword h4
        constructor
        · intro a ha
          rw [hframe a (by omega), hs1 a (by omega)]
        · intro addr p cnt hw st hmem i hi hout
          rcases List.mem_cons.mp hmem with h | h
          · simp only [FlashCall.program.injEq] at h
            obtain ⟨ha, -, hcnt, -, -⟩ := h
            omega
          · rw [hread addr p cnt hw st h i hi (by omega), hs1 _ (by omega)]
    · have hnot : (prv_program E (fun i => data (ro + i)) c (MEMFAULT_FLOOR n 4) s).1 ≠ 0 := by
        simp [prv_program_status, hst]
      simp only [write_interior, if_pos hm, if_pos hnot]
      refine ⟨[FlashCall.program (COREDUMP_FLASH_BASE E + c)
        ((List.range (MEMFAULT_FLOOR n 4)).map (fun i => data (ro + i))) (MEMFAULT_FLOOR n 4)
        false (E.status s.log.length)], ?_, fun h => absurd h hn0, ?_, ?_, ?_, ?_, ?_⟩
      · rw [prv_program_log, haddr]
      · intro a ha
        apply prv_program_mem_outside
        omega
      · intro hok
        exact absurd (hok _ (Nat.le_refl _)) hst
      · intro pre c1 post hsplit _
        rcases pre with _ | ⟨x, pre⟩
        · simp only [List.nil_append, List.cons.injEq] at hsplit
          exact ⟨rfl, hsplit.2.symm⟩
        · simp at hsplit
      · intro c1 hc1
        simp only [List.mem_singleton] at hc1
        subst hc1
        refine ⟨_, List.map (fun i => data (ro + i)) (List.range (MEMFAULT_FLOOR n 4)), ?_,
          Nat.le_refl _, ?_⟩
        · simp [FlashCall.rv]
        · intro h0
          exact absurd h0 hst
      · intro _
        constructor
        · intro a ha
          apply prv_program_mem_outside
          omega
        · intro addr p cnt hw st hmem i hi hout
          simp only [List.mem_singleton, FlashCall.program.injEq] at hmem
          obtain ⟨ha, -, hcnt, -, -⟩ := hmem
          omega
  · have hn : n < 4 := by
      unfold MEMFAULT_FLOOR at hm; omega
    simp only [write_interior, if_neg hm]
    exact write_tail_post E data rv n ro c s hfit hb hn hc

/-- What an accepted `memfault_platform_coredump_storage_write` guarantees: the calls it
logs, the bytes it places when every program call succeeds, its result, where it stops,
that programmed payloads stay in flash, and (on a region made of whole words) that no
byte outside the written range changes. -/
theorem write_post (E : Env) (offset : Nat) (data : Nat → Nat) (data_len : Nat) (s : Flash)
    (hfit : COREDUMP_FLASH_BASE E + COREDUMP_STORAGE_SIZE E < 4294967296)
    (hb : offset + data_len ≤ COREDUMP_STORAGE_SIZE E) :
    ∃ calls : List FlashCall,
      (memfault_platform_coredump_storage_write E offset data data_len s).2.log = s.log ++ calls ∧
      ((∀ k, s.log.length ≤ k → E.status k = 0) →
        (∀ a, COREDUMP_FLASH_BASE E + offset ≤ a → a < COREDUMP_FLASH_BASE E + offset + data_len →
          (memfault_platform_coredump_storage_write E offset data data_len s).2.mem a =
            s.mem a &&& data (a - (COREDUMP_FLASH_BASE E + offset))) ∧
        (data_len ≠ 0 ∨ offset % 4 ≠ 0 ∨ E.rv_indeterminate = 0 →
          (memfault_platform_coredump_storage_write E offset data data_len s).1 = true)) ∧
      (∀ pre c post, calls = pre ++ c :: post → c.rv ≠ 0 →
        (memfault_platform_coredump_storage_write E offset data data_len s).1 = false ∧
          post = []) ∧
      (∀ c ∈ calls, ∃ addr p, c = FlashCall.program addr p p.length false c.rv ∧
        (c.rv = 0 → ∀ i, i < p.length →
          (memfault_platform_coredump_storage_write E offset data data_len s).2.mem (addr + i) =
            s.mem (addr + i) &&& p.getD i 0)) ∧
      (4 ∣ COREDUMP_STORAGE_SIZE E →
        (∀ a, ¬ (COREDUMP_FLASH_BASE E + offset ≤ a ∧
              a < COREDUMP_FLASH_BASE E + offset + data_len) →
          (memfault_platform_coredump_storage_write E offset data data_len s).2.mem a = s.mem a) ∧
        (∀ addr p cnt hw st, FlashCall.program addr p cnt hw st ∈ calls →
          ∀ i, i < cnt → ¬ (COREDUMP_FLASH_BASE E + offset ≤ addr + i ∧
              addr + i < COREDUMP_FLASH_BASE E + offset + data_len) →
            p.getD i 0 = s.mem (addr + i))) := by
  have hs := storage_size_lt E
  have hnb : ¬ ((offset + data_len) % 4294967296 > COREDUMP_STORAGE_SIZE E) := by omega
  by_cases hr : offset % 4 ≠ 0
  · -- unaligned head
    have hlen : MEMFAULT_MIN (4 - offset % 4) data_len ≤ data_len ∧
        MEMFAULT_MIN (4 - offset % 4) data_len ≤ 4 - offset % 4 ∧
        (data_len - MEMFAULT_MIN (4 - offset % 4) data_len ≠ 0 →
          MEMFAULT_MIN (4 - offset % 4) data_len = 4 - offset % 4) := by
      unfold MEMFAULT_MIN; split_ifs <;> omega
    obtain ⟨hl1, hl2, hl3⟩ := hlen
    have haddr : (COREDUMP_FLASH_BASE E + (offset - offset % 4)) % 4294967296 =
        COREDUMP_FLASH_BASE E + (offset - offset % 4) := by omega
    have hcur : (offset + MEMFAULT_MIN (4 - offset % 4) data_len) % 4294967296 =
        offset + MEMFAULT_MIN (4 - offset % 4) data_len := by omega
    obtain ⟨W, hW⟩ : ∃ W, W = memcpy (memfault_platform_coredump_storage_read E
        (offset - offset % 4) E.word_indeterminate 4 s).2 (offset % 4) data
        (MEMFAULT_MIN (4 - offset % 4) data_len) := ⟨_, rfl⟩
    have hWdata : ∀ j, offset % 4 ≤ j → j < offset % 4 + MEMFAULT_MIN (4 - offset % 4) data_len →
        W j = data (j - offset % 4) := by
      intro j h1 h2
      simp [hW, memcpy, h1, h2]
    have hWold : 4 ∣ COREDUMP_STORAGE_SIZE E → ∀ j, j < 4 →
        ¬ (offset % 4 ≤ j ∧ j < offset % 4 + MEMFAULT_MIN (4 - offset % 4) data_len) →
        W j = s.mem (COREDUMP_FLASH_BASE E + (offset - offset % 4) + j) := by
      intro h4 j hj hout
      obtain ⟨q, hq⟩ := h4
      have hnb2 : ¬ ((offset - offset % 4 + 4) % 4294967296 > COREDUMP_STORAGE_SIZE E) := by omega
      simp [hW, memcpy, hout, memfault_platform_coredump_storage_read, hnb2, hj, haddr]
    have hs1 : ∀ a, ¬ (COREDUMP_FLASH_BASE E + (offset - offset % 4) ≤ a ∧
          a < COREDUMP_FLASH_BASE E + (offset - offset % 4) + 4) →
        (prv_program E W (offset - offset % 4) 4 s).2.mem a = s.mem a := by
      intro a ha
      apply prv_program_mem_outside
      rw [haddr]; exact ha
    have hs3 : 4 ∣ COREDUMP_STORAGE_SIZE E → ∀ a, ¬ (COREDUMP_FLASH_BASE E + offset ≤ a ∧
          a < COREDUMP_FLASH_BASE E + offset + MEMFAULT_MIN (4 - offset % 4) data_len) →
        (prv_program E W (offset - offset % 4) 4 s).2.mem a = s.mem a := by
      intro h4 a ha
      rw [prv_program_mem, haddr]
      split_ifs with hcond
      · rw [hWold h4 _ (by omega) (by omega)]
        have : COREDUMP_FLASH_BASE E + (offset - offset % 4) +
            (a - (COREDUMP_FLASH_BASE E + (offset - offset % 4))) = a := by omega
        rw [this, Nat.and_self]
      · rfl
    have hread0 : 4 ∣ COREDUMP_STORAGE_SIZE E → ∀ i, i < 4 →
        ¬ (COREDUMP_FLASH_BASE E + offset ≤ COREDUMP_FLASH_BASE E + (offset - offset % 4) + i ∧
          COREDUMP_FLASH_BASE E + (offset - offset % 4) + i <
            COREDUMP_FLASH_BASE E + offset + data_len) →
        ((List.range 4).map W).getD i 0 =
          s.mem (COREDUMP_FLASH_BASE E + (offset - offset % 4) + i) := by
      intro h4 i hi hout
      rw [payload_getD _ _ _ hi]
      apply hWold h4 i hi
      by_cases hz : data_len - MEMFAULT_MIN (4 - offset % 4) data_len = 0
      · omega
      · have := hl3 hz
        omega
    by_cases hst : E.status s.log.length = 0
    · have hnot : ¬ (prv_program E W (offset - offset % 4) 4 s).1 ≠ 0 := by
        simp [prv_program_status, hst]
      simp only [memfault_platform_coredump_storage_write, if_neg hnb, if_pos hr, ← hW,
        if_neg hnot, hcur]
      obtain ⟨calls, hlog, hnil, hlow, heff, habort, hcalls, hword⟩ :=
        write_interior_post E data (prv_program E W (offset - offset % 4) 4 s).1
          (data_len - MEMFAULT_MIN (4 - offset % 4) data_len)
          (0 + MEMFAULT_MIN (4 - offset % 4) data_len)
          (offset + MEMFAULT_MIN (4 - offset % 4) data_len)
          (prv_program E W (offset - offset % 4) 4 s).2
          hfit (by omega) (fun hz => by have := hl3 hz; omega)
      have hs2 : ∀ a, COREDUMP_FLASH_BASE E + (offset - offset % 4) ≤ a →
            a < COREDUMP_FLASH_BASE E + (offset - offset % 4) + 4 →
          (prv_program E W (offset - offset % 4) 4 s).2.mem a =
            s.mem a &&& W (a - (COREDUMP_FLASH_BASE E + (offset - offset % 4))) := by
        intro a h1 h2
        rw [prv_program_mem_inside E _ _ _ _ _ hst (by omega) (by omega), haddr]
      refine ⟨FlashCall.program (COREDUMP_FLASH_BASE E + (offset - offset % 4))
        ((List.range 4).map W) 4 false (E.status s.log.length) :: calls, ?_, ?_, ?_, ?_, ?_⟩
      · rw [hlog, prv_program_log, haddr, List.append_assoc]; rfl
      · intro hok
        have hok2 : ∀ k, (prv_program E W (offset - offset % 4) 4 s).2.log.length ≤ k →
            E.status k = 0 := by
          intro k hk
          apply hok
          rw [prv_program_log] at hk
          simp at hk
          omega
        obtain ⟨he1, he2⟩ := heff hok2
        refine ⟨?_, fun _ => he2 (Or.inr (by rw [prv_program_status, hst]))⟩
        intro a h1 h2
        by_cases hin : a < COREDUMP_FLASH_BASE E + offset + MEMFAULT_MIN (4 - offset % 4) data_len
        · rw [hlow a (Or.inl (by omega)), hs2 a (by omega) (by omega),
            hWdata _ (by omega) (by omega)]
          congr 2
          omega
        · have hz : data_len - MEMFAULT_MIN (4 - offset % 4) data_len ≠ 0 := by omega
          have := hl3 hz
          rw [he1 a (by omega) (by omega), hs1 a (by omega)]
          congr 2
          omega
      · intro pre c1 post hsplit hrv
        rcases pre with _ | ⟨x, pre⟩
        · simp only [List.nil_append, List.cons.injEq] at hsplit
          obtain ⟨hc1, -⟩ := hsplit
          subst hc1
          simp only [FlashCall.rv] at hrv
          exact absurd hst hrv
        · simp only [List.cons_append, List.cons.injEq] at hsplit
          exact habort pre c1 post hsplit.2 hrv
      · intro c1 hc1
        rcases List.mem_cons.mp hc1 with h | h
        · subst h
          refine ⟨COREDUMP_FLASH_BASE E + (offset - offset % 4), List.map W (List.range 4), ?_, ?_⟩
          · simp [FlashCall.rv]
          · intro _ i hi
            simp only [List.length_map, List.length_range] at hi
            rw [payload_getD _ _ _ hi]
            have hkeep : (write_interior E data (prv_program E W (offset - offset % 4) 4 s).1
                (data_len - MEMFAULT_MIN (4 - offset % 4) data_len)
                (0 + MEMFAULT_MIN (4 - offset % 4) data_len)
                (offset + MEMFAULT_MIN (4 - offset % 4) data_len)
                (prv_program E W (offset - offset % 4) 4 s).2).2.mem
                  (COREDUMP_FLASH_BASE E + (offset - offset % 4) + i) =
                (prv_program E W (offset - offset % 4) 4 s).2.mem
                  (COREDUMP_FLASH_BASE E + (offset - offset % 4) + i) := by
              apply hlow
              by_cases hz : data_len - MEMFAULT_MIN (4 - offset % 4) data_len = 0
              · exact Or.inr hz
              · have := hl3 hz
                left; omega
            rw [hkeep, hs2 _ (by omega) (by omega)]
            congr 2
            omega
        · obtain ⟨addr, p, hshape, hge, hpers⟩ := hcalls c1 h
          refine ⟨addr, p, hshape, ?_⟩
          intro h0 i hi
          have hz : data_len - MEMFAULT_MIN (4 - offset % 4) data_len ≠ 0 := by
            intro hz
            rw [hnil hz] at h
            simp at h
          have := hl3 hz
          rw [hpers h0 i hi, hs1 _ (by omega)]
      · intro h4
        obtain ⟨hframe, hread⟩ := hword h4
        constructor
        · intro a ha
          rw [hframe a (by omega), hs3 h4 a (by omega)]
        · intro addr p cnt hw st hmem i hi hout
          rcases List.mem_cons.mp hmem with h | h
          · simp only [FlashCall.program.injEq] at h
            obtain ⟨ha, hp, hcnt, -, -⟩ := h
            subst ha hp hcnt
            exact hread0 h4 i hi hout
          · rw [hread addr p cnt hw st h i hi (by omega), hs3 h4 _ (by omega)]
    · have hnot : (prv_program E W (offset - offset % 4) 4 s).1 ≠ 0 := by
        simp [prv_program_status, hst]
      simp only [memfault_platform_coredump_storage_write, if_neg hnb, if_pos hr, ← hW,
        if_pos hnot]
      refine ⟨[FlashCall.program (COREDUMP_FLASH_BASE E + (offset - offset % 4))
        ((List.range 4).map W) 4 false (E.status s.log.length)], ?_, ?_, ?_, ?_, ?_⟩
      · rw [prv_program_log, haddr]
      · intro hok
        exact absurd (hok _ (Nat.le_refl _)) hst
      · intro pre c1 post hsplit _
        rcases pre with _ | ⟨x, pre⟩
        · simp only [List.nil_append, List.cons.injEq] at hsplit
          exact ⟨trivial, hsplit.2.symm⟩
        · simp at hsplit
      · intro c1 hc1
        simp only [List.mem_singleton] at hc1
        subst hc1
        refine ⟨COREDUMP_FLASH_BASE E + (offset - offset % 4), List.map W (List.range 4), ?_, ?_⟩
        · simp [FlashCall.rv]
        · intro h0
          exact absurd h0 hst
      · intro h4
        constructor
        · intro a ha
          apply hs3 h4
          omega
        · intro addr p cnt hw st hmem i hi hout
          simp only [List.mem_singleton, FlashCall.program.injEq] at hmem
          obtain ⟨ha, hp, hcnt, -, -⟩ := hmem
          subst ha hp hcnt
          exact hread0 h4 i hi hout
  · -- word-aligned offset: straight to the interior
    have hr0 : offset % 4 = 0 := by omega
    simp only [memfault_platform_coredump_storage_write, if_neg hnb, if_neg hr]
    obtain ⟨calls, hlog, -, -, heff, habort, hcalls, hword⟩ :=
      write_interior_post E data E.rv_indeterminate data_len 0 offset s hfit hb
        (fun _ => Nat.dvd_of_mod_eq_zero hr0)
    refine ⟨calls, hlog, ?_, habort, ?_, hword⟩
    · intro hok
      obtain ⟨he1, he2⟩ := heff hok
      refine ⟨?_, ?_⟩
      · intro a h1 h2
        simpa using he1 a h1 h2
      · intro h
        apply he2
        rcases h with h | h | h
        · exact Or.inl h
        · exact absurd hr0 h
        · exact Or.inr h
    · intro c hc
      obtain ⟨addr, p, hshape, -, hpers⟩ := hcalls c hc
      exact ⟨addr, p, hshape, hpers⟩

/-- Programming a byte onto an erased byte stores the byte. -/
theorem and_erased_byte (d : Nat) (h : d < 256) : 255 &&& d = d := by
  have := Nat.and_pow_two_sub_one_eq_mod d 8
  rw [Nat.land_comm]
  simpa [Nat.mod_eq_of_lt h] using this

/-! ## The claims -/

/-- C1: writing non-empty `data` of length `data_len` at any `offset` with
`offset + data_len ≤ capacity`, onto bytes that are erased (`0xFF`), with every flash
program call succeeding, returns `true`, and reading `data_len` bytes back at `offset`
returns `true` and yields exactly `data`. -/
theorem write_then_read_roundtrip (E : Env) (offset : Nat) (data : Nat → Nat) (data_len : Nat)
    (s : Flash) (buf : Nat → Nat) (hwf : E.WellFormed) (hlen : 0 < data_len)
    (hb : offset + data_len ≤ COREDUMP_STORAGE_SIZE E)
    (hbyte : ∀ i, i < data_len → data i < 256)
    (herased : ∀ i, i < data_len → s.mem (COREDUMP_FLASH_BASE E + offset + i) = 255)
    (hok : ∀ k, s.log.length ≤ k → E.status k = 0) :
    (memfault_platform_coredump_storage_write E offset data data_len s).1 = true ∧
    (memfault_platform_coredump_storage_read E offset buf data_len
      (memfault_platform_coredump_storage_write E offset data data_len s).2).1 = true ∧
    ∀ i, i < data_len →
      (memfault_platform_coredump_storage_read E offset buf data_len
        (memfault_platform_coredump_storage_write E offset data data_len s).2).2 i = data i := by
  obtain ⟨calls, -, heff, -, -, -⟩ := write_post E offset data data_len s (region_fits E hwf) hb
  obtain ⟨hmem, hres⟩ := heff hok
  obtain ⟨hr1, hr2⟩ := read_in_bounds E hwf offset buf data_len
    (memfault_platform_coredump_storage_write E offset data data_len s).2 hb
  refine ⟨hres (Or.inl (by omega)), hr1, ?_⟩
  intro i hi
  rw [hr2 i hi, hmem _ (by omega) (by omega), herased i hi]
  have : COREDUMP_FLASH_BASE E + offset + i - (COREDUMP_FLASH_BASE E + offset) = i := by omega
  rw [this]
  exact and_erased_byte _ (hbyte i hi)

/-- C1 at work: `0xAA, 0xBB, 0xCC` written at offset 1 of erased flash are read back. -/
theorem write_then_read_roundtrip_witness :
    (memfault_platform_coredump_storage_write envOk 1 dataABC 3 flashErased).1 = true ∧
    (memfault_platform_coredump_storage_read envOk 1 (fun _ => 0) 3
      (memfault_platform_coredump_storage_write envOk 1 dataABC 3 flashErased).2).1 = true ∧
    ∀ i, i < 3 →
      (memfault_platform_coredump_storage_read envOk 1 (fun _ => 0) 3
        (memfault_platform_coredump_storage_write envOk 1 dataABC 3 flashErased).2).2 i =
        dataABC i :=
  write_then_read_roundtrip envOk 1 dataABC 3 flashErased (fun _ => 0) (by decide) (by decide)
    (by decide) (by decide) (fun _ _ => rfl) (fun _ _ => rfl)

/-- C2: on a region whose capacity is a multiple of 4, a write with
`offset + data_len ≤ capacity` leaves every byte of the medium outside
`[offset, offset + data_len)` as it was, whatever the program calls return; and every
payload byte of a program call that falls outside that range (the bytes of the head word
before `offset`, of the tail word after `offset + data_len`) is the value read back from
flash. -/
theorem write_frame (E : Env) (offset : Nat) (data : Nat → Nat) (data_len : Nat) (s : Flash)
    (hwf : E.WellFormed) (h4 : 4 ∣ COREDUMP_STORAGE_SIZE E)
    (hb : offset + data_len ≤ COREDUMP_STORAGE_SIZE E) :
    (∀ a, ¬ (COREDUMP_FLASH_BASE E + offset ≤ a ∧
          a < COREDUMP_FLASH_BASE E + offset + data_len) →
      (memfault_platform_coredump_storage_write E offset data data_len s).2.mem a = s.mem a) ∧
    (∀ addr p cnt hw st,
      FlashCall.program addr p cnt hw st ∈
        (memfault_platform_coredump_storage_write E offset data data_len s).2.log.drop
          s.log.length →
      ∀ i, i < cnt → ¬ (COREDUMP_FLASH_BASE E + offset ≤ addr + i ∧
          addr + i < COREDUMP_FLASH_BASE E + offset + data_len) →
        p.getD i 0 = s.mem (addr + i)) := by
  obtain ⟨calls, hlog, -, -, -, hword⟩ :=
    write_post E offset data data_len s (region_fits E hwf) hb
  obtain ⟨hframe, hread⟩ := hword h4
  refine ⟨hframe, ?_⟩
  intro addr p cnt hw st hmem
  rw [hlog, List.drop_left] at hmem
  exact hread addr p cnt hw st hmem

/-- C2 at work: a 10-byte write at offset 3 (head, interior and tail) over patterned flash. -/
theorem write_frame_witness :
    (∀ a, ¬ (COREDUMP_FLASH_BASE envOk + 3 ≤ a ∧ a < COREDUMP_FLASH_BASE envOk + 3 + 10) →
      (memfault_platform_coredump_storage_write envOk 3 dataCount 10 flashPattern).2.mem a =
        flashPattern.mem a) ∧
    (∀ addr p cnt hw st,
      FlashCall.program addr p cnt hw st ∈
        (memfault_platform_coredump_storage_write envOk 3 dataCount 10 flashPattern).2.log.drop
          flashPattern.log.length →
      ∀ i, i < cnt → ¬ (COREDUMP_FLASH_BASE envOk + 3 ≤ addr + i ∧
          addr + i < COREDUMP_FLASH_BASE envOk + 3 + 10) →
        p.getD i 0 = flashPattern.mem (addr + i)) :=
  write_frame envOk 3 dataCount 10 flashPattern (by decide) (by decide) (by decide)

/-- C3: the bounds checks add `offset` and the length in 32-bit arithmetic, so a request
whose true sum exceeds the capacity but wraps to a small value is accepted. On the 4 kB
region of `envOk`, `read` and `write` at offset `0xFFFFFFFF` with length 2 return `true`,
the write issuing two program calls (one of them below the region), and `erase` at offset
`0xFFFFF800` with length 2048 returns `true` after a sector erase below the region. -/
theorem bounds_check_wraps :
    COREDUMP_STORAGE_SIZE envOk = 4096 ∧
    (memfault_platform_coredump_storage_read envOk 4294967295 (fun _ => 0) 2 flashErased).1
      = true ∧
    (memfault_platform_coredump_storage_write envOk 4294967295 dataABC 2 flashErased).1
      = true ∧
    (memfault_platform_coredump_storage_write envOk 4294967295 dataABC 2 flashErased).2.log =
      [FlashCall.program 16777212 [255, 255, 255, 170] 4 false 0,
       FlashCall.program 16777216 [187, 255, 255, 255] 4 false 0] ∧
    (memfault_platform_coredump_storage_write envOk 4294967295 dataABC 2 flashErased).2.mem
      16777216 = 187 ∧
    (memfault_platform_coredump_storage_erase envOk 4294965248 2048 flashPattern).1 = true ∧
    (memfault_platform_coredump_storage_erase envOk 4294965248 2048 flashPattern).2.log =
      [FlashCall.erase 16775168 false 0] := by
  decide

/-- A request whose 32-bit sum does not wrap and exceeds the capacity is refused by
`read`, `write` and `erase` alike, with the buffer and the flash state untouched. -/
theorem bounds_rejected_without_wrap (E : Env) (offset len : Nat) (data : Nat → Nat)
    (s : Flash) (hnw : offset + len < 4294967296) (hout : COREDUMP_STORAGE_SIZE E < offset + len) :
    memfault_platform_coredump_storage_read E offset data len s = (false, data) ∧
    memfault_platform_coredump_storage_write E offset data len s = (false, s) ∧
    memfault_platform_coredump_storage_erase E offset len s = (false, s) := by
  have hmod : (offset + len) % 4294967296 = offset + len := Nat.mod_eq_of_lt hnw
  simp [memfault_platform_coredump_storage_read, memfault_platform_coredump_storage_write,
    memfault_platform_coredump_storage_erase, hmod, hout]

/-- C4, as the claim states it, fails: on the region of `envOk` (base address a multiple
of 2048) the accepted request `erase(1, 2048)`, every sector erase succeeding, returns
`true` but leaves the byte at offset 2048, inside `[1, 1 + 2048)`, unerased. -/
theorem erase_unaligned_leaves_byte :
    1 + 2048 ≤ COREDUMP_STORAGE_SIZE envOk ∧ 2048 % COREDUMP_SECTOR_SIZE = 0 ∧
    (memfault_platform_coredump_storage_erase envOk 1 2048 flashPattern).1 = true ∧
    (memfault_platform_coredump_storage_erase envOk 1 2048 flashPattern).2.log =
      [FlashCall.erase 16777217 false 0] ∧
    (memfault_platform_coredump_storage_read envOk 1 (fun _ => 0) 2048
      (memfault_platform_coredump_storage_erase envOk 1 2048 flashPattern).2).2 2047 = 0 := by
  decide

/-- C4 (amended): for `erase_size` a multiple of the 2048-byte sector size,
`offset + erase_size ≤ capacity` and `offset` at a sector boundary of the flash (the
address `COREDUMP_FLASH_BASE + offset` a multiple of 2048), when every sector erase
succeeds the erase returns `true` and every byte of `[offset, offset + erase_size)` reads
back `0xFF`. -/
theorem erase_aligned_postcondition (E : Env) (offset erase_size : Nat) (s : Flash)
    (buf : Nat → Nat) (hwf : E.WellFormed)
    (hsz : erase_size % COREDUMP_SECTOR_SIZE = 0)
    (hal : (COREDUMP_FLASH_BASE E + offset) % COREDUMP_SECTOR_SIZE = 0)
    (hb : offset + erase_size ≤ COREDUMP_STORAGE_SIZE E)
    (hok : ∀ k, s.log.length ≤ k → E.status k = 0) :
    (memfault_platform_coredump_storage_erase E offset erase_size s).1 = true ∧
    (memfault_platform_coredump_storage_read E offset buf erase_size
      (memfault_platform_coredump_storage_erase E offset erase_size s).2).1 = true ∧
    ∀ i, i < erase_size →
      (memfault_platform_coredump_storage_read E offset buf erase_size
        (memfault_platform_coredump_storage_erase E offset erase_size s).2).2 i = 255 := by
  have hfit := region_fits E hwf
  have hs := storage_size_lt E
  simp only [COREDUMP_SECTOR_SIZE] at hsz hal
  have hacc : ¬ ((offset + erase_size) % 4294967296 > COREDUMP_STORAGE_SIZE E ∨
      erase_size % COREDUMP_SECTOR_SIZE ≠ 0) := by
    simp only [COREDUMP_SECTOR_SIZE]; omega
  obtain ⟨hr1, hr2⟩ := read_in_bounds E hwf offset buf erase_size
    (memfault_platform_coredump_storage_erase E offset erase_size s).2 hb
  refine ⟨?_, hr1, ?_⟩
  · simp only [memfault_platform_coredump_storage_erase, if_neg hacc]
    exact erase_loop_result E offset erase_size _ _ _
  · intro i hi
    rw [hr2 i hi]
    simp only [memfault_platform_coredump_storage_erase, if_neg hacc]
    apply erase_loop_mem E offset erase_size (by omega) hsz hal erase_size 0 s (by omega)
      (by omega) hok
    left
    omega

/-- C4 (amended) at work: erasing the second sector of the region of `envOk`. -/
theorem erase_aligned_postcondition_witness :
    (memfault_platform_coredump_storage_erase envOk 2048 2048 flashPattern).1 = true ∧
    (memfault_platform_coredump_storage_read envOk 2048 (fun _ => 0) 2048
      (memfault_platform_coredump_storage_erase envOk 2048 2048 flashPattern).2).1 = true ∧
    ∀ i, i < 2048 →
      (memfault_platform_coredump_storage_read envOk 2048 (fun _ => 0) 2048
        (memfault_platform_coredump_storage_erase envOk 2048 2048 flashPattern).2).2 i = 255 :=
  erase_aligned_postcondition envOk 2048 2048 flashPattern (fun _ => 0) (by decide) (by decide)
    (by decide) (by decide) (fun _ _ => rfl)

/-- C5: the erase loop never stores what `prv_erase_sector` returns. On the region of
`envFail`, where every sector erase reports `-1`, the accepted request `erase(0, 4096)`
returns `true` and goes on to erase the second sector after the first one failed. -/
theorem erase_ignores_sector_failure :
    (memfault_platform_coredump_storage_erase envFail 0 4096 flashPattern).1 = true ∧
    (memfault_platform_coredump_storage_erase envFail 0 4096 flashPattern).2.log =
      [FlashCall.erase 16777216 false (-1), FlashCall.erase 16779264 false (-1)] := by
  decide

/-- C6: in a write with `offset + data_len ≤ capacity`, a program call that returns a
non-zero status makes the write return `false` and is the last call the write issues;
the payload of every call issued before it is still in flash afterwards (each programmed
byte is the bitwise AND of its old value and the payload byte: nothing is rolled back). -/
theorem write_aborts_on_program_failure (E : Env) (offset : Nat) (data : Nat → Nat)
    (data_len : Nat) (s : Flash) (hwf : E.WellFormed)
    (hb : offset + data_len ≤ COREDUMP_STORAGE_SIZE E)
    (pre : List FlashCall) (c : FlashCall) (post : List FlashCall)
    (hlog : (memfault_platform_coredump_storage_write E offset data data_len s).2.log =
      s.log ++ (pre ++ c :: post))
    (hrv : c.rv ≠ 0) :
    (memfault_platform_coredump_storage_write E offset data data_len s).1 = false ∧
    post = [] ∧
    ∀ addr p cnt hw st, FlashCall.program addr p cnt hw st ∈ pre →
      ∀ i, i < cnt →
        (memfault_platform_coredump_storage_write E offset data data_len s).2.mem (addr + i) =
          s.mem (addr + i) &&& p.getD i 0 := by
  obtain ⟨calls, hcalls, -, habort, hshape, -⟩ :=
    write_post E offset data data_len s (region_fits E hwf) hb
  have hsplit : calls = pre ++ c :: post := by
    rw [hcalls] at hlog
    exact List.append_cancel_left hlog
  obtain ⟨hres, hpost⟩ := habort pre c post hsplit hrv
  refine ⟨hres, hpost, ?_⟩
  intro addr p cnt hw st hmem i hi
  obtain ⟨l1, l2, hl⟩ := List.append_of_mem hmem
  have hst : st = 0 := by
    by_contra hne
    have hsplit2 : calls = l1 ++ FlashCall.program addr p cnt hw st :: (l2 ++ c :: post) := by
      rw [hsplit, hl]; simp
    have := (habort l1 _ _ hsplit2 (by simpa [FlashCall.rv] using hne)).2
    simp at this
  have hin : FlashCall.program addr p cnt hw st ∈ calls := by
    rw [hsplit]
    exact List.mem_append_left _ hmem
  obtain ⟨addr2, p2, heq, hpers⟩ := hshape _ hin
  simp only [FlashCall.program.injEq, FlashCall.rv] at heq
  obtain ⟨ha, hp, hcnt, -, -⟩ := heq
  subst ha hp hcnt
  exact hpers (by simpa [FlashCall.rv] using hst) i hi

/-- C6 at work: a 10-byte write at offset 3 whose interior program call fails; the head
word stays programmed and no tail call follows. -/
theorem write_aborts_on_program_failure_witness :
    (memfault_platform_coredump_storage_write envFailSecond 3 dataCount 10 flashErased).2.log =
      flashErased.log ++
        ([FlashCall.program 16777216 [255, 255, 255, 1] 4 false 0] ++
          FlashCall.program 16777220 [2, 3, 4, 5, 6, 7, 8, 9] 8 false (-1) :: []) ∧
    (memfault_platform_coredump_storage_write envFailSecond 3 dataCount 10 flashErased).1
      = false ∧
    ([] : List FlashCall) = [] ∧
    ∀ addr p cnt hw st,
      FlashCall.program addr p cnt hw st ∈
        [FlashCall.program 16777216 [255, 255, 255, 1] 4 false 0] →
      ∀ i, i < cnt →
        (memfault_platform_coredump_storage_write envFailSecond 3 dataCount 10
          flashErased).2.mem (addr + i) = flashErased.mem (addr + i) &&& p.getD i 0 :=
  ⟨by decide,
   write_aborts_on_program_failure envFailSecond 3 dataCount 10 flashErased (by decide)
     (by decide) [FlashCall.program 16777216 [255, 255, 255, 1] 4 false 0]
     (FlashCall.program 16777220 [2, 3, 4, 5, 6, 7, 8, 9] 8 false (-1)) [] (by decide)
     (by decide)⟩

/-- C7, as the claim states it, fails: on a region of 4098 bytes the write of one byte
at offset 4097 is in bounds with `r = 1` and `1 ≤ 1 ≤ 4 - r`, but the read-back of the
word at offset 4096 is refused (`4096 + 4 > 4098`) and its result ignored, so the one
program call carries the uninitialised stack bytes `0x5A` around the data byte instead
of the flash bytes `0, _, 2, 3` of that word. -/
theorem write_last_word_programs_stack_bytes :
    4097 + 1 ≤ COREDUMP_STORAGE_SIZE envOddCapacity ∧ 4097 % 4 = 1 ∧
    (memfault_platform_coredump_storage_read envOddCapacity 4096 (fun _ => 90) 4
      flashPattern).1 = false ∧
    (memfault_platform_coredump_storage_write envOddCapacity 4097 dataABC 1 flashPattern).2.log =
      [FlashCall.program 16781312 [90, 170, 90, 90] 4 false 0] ∧
    (List.range 4).map (fun i =>
        if 1 ≤ i ∧ i < 1 + 1 then dataABC (i - 1) else flashPattern.mem (16781312 + i)) =
      [0, 170, 2, 3] := by
  decide

/-- On a region whose capacity is a multiple of 4 the word that contains an in-bounds,
non-empty write lies inside the region. -/
theorem word_inside_region (E : Env) (offset data_len : Nat)
    (h4 : 4 ∣ COREDUMP_STORAGE_SIZE E) (hb : offset + data_len ≤ COREDUMP_STORAGE_SIZE E)
    (h1 : 1 ≤ data_len) : offset - offset % 4 + 4 ≤ COREDUMP_STORAGE_SIZE E := by
  obtain ⟨q, hq⟩ := h4
  omega

/-- C7 (amended): a write with `offset + data_len ≤ capacity`, `offset % 4 = r ≠ 0` and
`1 ≤ data_len ≤ 4 - r`, whose word lies inside the region (`offset - r + 4 ≤ capacity`,
as it always does when the capacity is a multiple of 4), issues exactly one flash call:
a program of 4 bytes at the word-aligned offset `offset - r`, whose payload is the word
read back from there with bytes `[r, r + data_len)` replaced by `data`; no interior and
no tail call follows, whatever status the call returns. -/
theorem write_single_word_unaligned (E : Env) (offset : Nat) (data : Nat → Nat)
    (data_len : Nat) (s : Flash)
    (hb : offset + data_len ≤ COREDUMP_STORAGE_SIZE E)
    (hword : offset - offset % 4 + 4 ≤ COREDUMP_STORAGE_SIZE E)
    (hr : offset % 4 ≠ 0) (h1 : 1 ≤ data_len) (h2 : data_len ≤ 4 - offset % 4) :
    (offset - offset % 4) % 4 = 0 ∧
    (memfault_platform_coredump_storage_write E offset data data_len s).2.log =
      s.log ++ [FlashCall.program ((COREDUMP_FLASH_BASE E + (offset - offset % 4)) % 4294967296)
        ((List.range 4).map (fun i =>
          if offset % 4 ≤ i ∧ i < offset % 4 + data_len then data (i - offset % 4)
          else s.mem ((COREDUMP_FLASH_BASE E + (offset - offset % 4)) % 4294967296 + i)))
        4 false (E.status s.log.length)] := by
  refine ⟨by omega, ?_⟩
  have hs := storage_size_lt E
  have hlen : MEMFAULT_MIN (4 - offset % 4) data_len = data_len := by
    unfold MEMFAULT_MIN; split_ifs <;> omega
  have hnb : ¬ ((offset + data_len) % 4294967296 > COREDUMP_STORAGE_SIZE E) := by omega
  have hnb2 : ¬ ((offset - offset % 4 + 4) % 4294967296 > COREDUMP_STORAGE_SIZE E) := by omega
  simp only [memfault_platform_coredump_storage_write, if_neg hnb, hr, ne_eq, not_false_eq_true,
    if_true, hlen, memfault_platform_coredump_storage_read, if_neg hnb2]
  have hpay : (List.range 4).map (memcpy (memcpy E.word_indeterminate 0
        (fun i => s.mem ((COREDUMP_FLASH_BASE E + (offset - offset % 4)) % 4294967296 + i)) 4)
        (offset % 4) data data_len) =
      (List.range 4).map (fun i =>
          if offset % 4 ≤ i ∧ i < offset % 4 + data_len then data (i - offset % 4)
          else s.mem ((COREDUMP_FLASH_BASE E + (offset - offset % 4)) % 4294967296 + i)) := by
    apply List.map_congr_left
    intro i hi
    have hi4 : i < 4 := List.mem_range.mp hi
    simp only [memcpy]
    split_ifs <;> first | rfl | omega
  by_cases hst : E.status s.log.length = 0
  · simp [prv_program_status, prv_program_log, hst, write_interior, write_tail, MEMFAULT_FLOOR,
      hpay]
  · simp [prv_program_status, prv_program_log, hst, hpay]

/-- C7 (amended) at work: offset 1, data `0xAA, 0xBB, 0xCC`, length 3 programs word 0
once. -/
theorem write_single_word_unaligned_witness :
    (1 - 1 % 4) % 4 = 0 ∧
    (memfault_platform_coredump_storage_write envOk 1 dataABC 3 flashPattern).2.log =
      flashPattern.log ++
        [FlashCall.program ((COREDUMP_FLASH_BASE envOk + (1 - 1 % 4)) % 4294967296)
          ((List.range 4).map (fun i =>
            if 1 % 4 ≤ i ∧ i < 1 % 4 + 3 then dataABC (i - 1 % 4)
            else flashPattern.mem
              ((COREDUMP_FLASH_BASE envOk + (1 - 1 % 4)) % 4294967296 + i)))
          4 false (envOk.status flashPattern.log.length)] :=
  write_single_word_unaligned envOk 1 dataABC 3 flashPattern (by decide) (by decide)
    (by decide) (by decide) (by decide)

/-- C8: an erase whose length is not a multiple of the 2048-byte sector size returns
`false` and leaves the state, the log of flash calls included, untouched: no sector is
erased. -/
theorem erase_rejects_unaligned_length (E : Env) (offset erase_size : Nat) (s : Flash)
    (h : erase_size % COREDUMP_SECTOR_SIZE ≠ 0) :
    (memfault_platform_coredump_storage_erase E offset erase_size s).1 = false ∧
    (memfault_platform_coredump_storage_erase E offset erase_size s).2 = s := by
  simp [memfault_platform_coredump_storage_erase, h]

/-- C8 at work: an erase of 2047 bytes is refused. -/
theorem erase_rejects_unaligned_length_witness :
    (memfault_platform_coredump_storage_erase envOk 0 2047 flashPattern).1 = false ∧
    (memfault_platform_coredump_storage_erase envOk 0 2047 flashPattern).2 = flashPattern :=
  erase_rejects_unaligned_length envOk 0 2047 flashPattern (by decide)

/-- C9, as the claim states it, fails: `clear` drops the result of the write, so when the
one program call reports failure (here without having programmed anything) the first
word of storage does not read back as zero. -/
theorem clear_failed_program_leaves_word :
    4 ≤ COREDUMP_STORAGE_SIZE envFail ∧
    (memfault_platform_coredump_storage_clear envFail flashErased).log =
      [FlashCall.program 16777216 [0, 0, 0, 0] 4 false (-1)] ∧
    (memfault_platform_coredump_storage_read envFail 0 (fun _ => 0) 4
      (memfault_platform_coredump_storage_clear envFail flashErased)).2 0 = 255 := by
  decide

/-- C9 (amended): on a region of capacity at least 4, `clear` issues exactly one flash
call, a 4-byte program of the all-zero word at offset 0, and no sector erase; when that
program call succeeds, the first word of storage reads back as zero afterwards. -/
theorem clear_programs_first_word (E : Env) (s : Flash) (buf : Nat → Nat)
    (hcap : 4 ≤ COREDUMP_STORAGE_SIZE E) :
    (memfault_platform_coredump_storage_clear E s).log =
      s.log ++ [FlashCall.program (COREDUMP_FLASH_BASE E) [0, 0, 0, 0] 4 false
        (E.status s.log.length)] ∧
    (E.status s.log.length = 0 →
      (memfault_platform_coredump_storage_read E 0 buf 4
        (memfault_platform_coredump_storage_clear E s)).1 = true ∧
      ∀ i, i < 4 →
        (memfault_platform_coredump_storage_read E 0 buf 4
          (memfault_platform_coredump_storage_clear E s)).2 i = 0) := by
  have hB := flash_base_lt E
  have hnb : ¬ ((0 + 4) % 4294967296 > COREDUMP_STORAGE_SIZE E) := by omega
  have haddr : COREDUMP_FLASH_BASE E % 4294967296 = COREDUMP_FLASH_BASE E :=
    Nat.mod_eq_of_lt hB
  have hfloor : MEMFAULT_FLOOR 4 4 = 4 := by decide
  by_cases hst : E.status s.log.length = 0
  · refine ⟨?_, fun _ => ⟨?_, ?_⟩⟩
    · simp [memfault_platform_coredump_storage_clear, memfault_platform_coredump_storage_write,
        hnb, write_interior, hfloor, write_tail, prv_program_status, prv_program_log, hst, haddr, hB,
        List.range_succ]
    · simp [memfault_platform_coredump_storage_read, hnb]
    · intro i hi
      have h3 : COREDUMP_FLASH_BASE E + i < COREDUMP_FLASH_BASE E + 4 := by omega
      simp [memfault_platform_coredump_storage_clear, memfault_platform_coredump_storage_write,
        memfault_platform_coredump_storage_read, hnb, write_interior, hfloor, write_tail,
        prv_program_status, prv_program_mem, hst, haddr, memcpy, hi, h3]
  · refine ⟨?_, fun h => absurd h hst⟩
    simp [memfault_platform_coredump_storage_clear, memfault_platform_coredump_storage_write,
      hnb, write_interior, hfloor, prv_program_status, prv_program_log, hst, haddr, hB,
      List.range_succ]

/-- C9 (amended) at work: `clear` on erased flash with a controller that succeeds. -/
theorem clear_programs_first_word_witness :
    (memfault_platform_coredump_storage_clear envOk flashErased).log =
      flashErased.log ++ [FlashCall.program (COREDUMP_FLASH_BASE envOk) [0, 0, 0, 0] 4 false
        (envOk.status flashErased.log.length)] ∧
    (envOk.status flashErased.log.length = 0 →
      (memfault_platform_coredump_storage_read envOk 0 (fun _ => 1) 4
        (memfault_platform_coredump_storage_clear envOk flashErased)).1 = true ∧
      ∀ i, i < 4 →
        (memfault_platform_coredump_storage_read envOk 0 (fun _ => 1) 4
          (memfault_platform_coredump_storage_clear envOk flashErased)).2 i = 0) :=
  clear_programs_first_word envOk flashErased (fun _ => 1) (by decide)

/-- C10, as the claim states it, fails: called with interrupts already disabled,
`prv_program` and `prv_erase_sector` return with interrupts enabled, not in the state
they were entered in. -/
theorem flash_call_enables_masked_interrupts :
    flashMasked.hwi = false ∧
    (prv_program envOk (fun _ => 0) 0 4 flashMasked).2.hwi = true ∧
    (prv_erase_sector envOk 0 flashMasked).2.hwi = true ∧
    (prv_program envFail (fun _ => 0) 0 4 flashMasked).2.hwi = true ∧
    (prv_erase_sector envFail 0 flashMasked).2.hwi = true := by
  decide

/-- C10 (amended): every `prv_program` and every `prv_erase_sector` runs its flash
operation with interrupts disabled and returns with interrupts enabled, whatever the
interrupt state on entry and whatever status the operation returns; the state on return
thus equals the state on entry exactly when interrupts were enabled on entry. -/
theorem flash_calls_run_masked_return_enabled (E : Env) (pulData : Nat → Nat)
    (offset ulCount sector_offset : Nat) (s : Flash) :
    ((prv_program E pulData offset ulCount s).2.log =
      s.log ++ [FlashCall.program ((COREDUMP_FLASH_BASE E + offset) % 4294967296)
        ((List.range ulCount).map pulData) ulCount false (E.status s.log.length)] ∧
     (prv_program E pulData offset ulCount s).1 = E.status s.log.length ∧
     (prv_program E pulData offset ulCount s).2.hwi = true) ∧
    ((prv_erase_sector E sector_offset s).2.log =
      s.log ++ [FlashCall.erase ((COREDUMP_FLASH_BASE E + sector_offset) % 4294967296) false
        (E.status s.log.length)] ∧
     (prv_erase_sector E sector_offset s).1 = E.status s.log.length ∧
     (prv_erase_sector E sector_offset s).2.hwi = true) ∧
    ((prv_program E pulData offset ulCount s).2.hwi = s.hwi ↔ s.hwi = true) ∧
    ((prv_erase_sector E sector_offset s).2.hwi = s.hwi ↔ s.hwi = true) := by
  refine ⟨⟨rfl, rfl, rfl⟩, ⟨rfl, rfl, rfl⟩, ?_, ?_⟩
  · show (true = s.hwi ↔ s.hwi = true)
    exact eq_comm
  · show (true = s.hwi ↔ s.hwi = true)
    exact eq_comm

end Cc32xx

namespace MemfaultCbor

/-! ## The binary encoder -/

/-- Every emitting operation is `emit` applied to the wire bytes of its item. -/
theorem run_eq_emit (c : CborCall) (e : MemfaultCborEncoder) : c.run e = emit e c.encoding := by
  cases c with
  | unsigned_integer value => rfl
  | signed_integer value =>
    simp only [CborCall.run, CborCall.encoding, memfault_cbor_encode_signed_integer,
      memfault_cbor_encode_unsigned_integer]
    split_ifs <;> rfl
  | byte_string buf => rfl
  | string str => rfl
  | array_begin n => rfl
  | dictionary_begin n => rfl

/-- The bytes of a sink with one more invocation. -/
theorem sink_bytes_append (sink : List (Nat × List Nat)) (offset : Nat) (buf : List Nat) :
    sink_bytes (sink ++ [(offset, buf)]) = sink_bytes sink ++ buf := by
  induction sink with
  | nil => simp [sink_bytes]
  | cons x rest ih =>
    obtain ⟨o, b⟩ := x
    simp [sink_bytes, ih]

/-- A sequential sink stays sequential when the next invocation is at the offset reached. -/
theorem sink_sequential_append (sink : List (Nat × List Nat)) (buf : List Nat) :
    ∀ start, sink_sequential start sink = true →
      sink_sequential start (sink ++ [(start + (sink_bytes sink).length, buf)]) = true := by
  induction sink with
  | nil => intro start _; simp [sink_sequential, sink_bytes]
  | cons x rest ih =>
    obtain ⟨o, b⟩ := x
    intro start h
    simp only [sink_sequential, Bool.and_eq_true, decide_eq_true_eq] at h
    obtain ⟨ho, hrest⟩ := h
    have := ih (start + b.length) hrest
    simp only [List.cons_append, sink_sequential, sink_bytes, List.length_append,
      Bool.and_eq_true, decide_eq_true_eq]
    refine ⟨ho, ?_⟩
    rw [← Nat.add_assoc]
    exact this

/-- What a materializing session keeps true: the counter is the number of bytes the sink
received, these arrived at sequential offsets from 0, and the counter is within the
ceiling. -/
theorem emit_invariant (e : MemfaultCborEncoder) (bytes : List Nat)
    (hmode : e.compute_size_only = false)
    (hcount : (sink_bytes e.sink).length = e.encoded_size)
    (hseq : sink_sequential 0 e.sink = true) (hcap : e.encoded_size ≤ e.buf_len) :
    (emit e bytes).2.compute_size_only = false ∧
    (emit e bytes).2.buf_len = e.buf_len ∧
    (sink_bytes (emit e bytes).2.sink).length = (emit e bytes).2.encoded_size ∧
    sink_sequential 0 (emit e bytes).2.sink = true ∧
    (emit e bytes).2.encoded_size ≤ e.buf_len := by
  unfold emit
  rw [hmode]
  by_cases hover : e.encoded_size + bytes.length > e.buf_len
  · simp [hover, hmode, hcount, hseq, hcap]
  · have hs := sink_sequential_append e.sink bytes 0 hseq
    rw [Nat.zero_add, hcount] at hs
    simp only [Bool.false_eq_true, if_false, if_neg hover, sink_bytes_append,
      List.length_append, hcount, hs, hmode]
    refine ⟨trivial, trivial, trivial, trivial, ?_⟩
    omega

/-- The invariant of `emit_invariant` along a sequence of calls. -/
theorem run_calls_invariant (calls : List CborCall) :
    ∀ e : MemfaultCborEncoder, e.compute_size_only = false →
      (sink_bytes e.sink).length = e.encoded_size → sink_sequential 0 e.sink = true →
      e.encoded_size ≤ e.buf_len →
      (sink_bytes (run_calls calls e).sink).length = (run_calls calls e).encoded_size ∧
      sink_sequential 0 (run_calls calls e).sink = true ∧
      (run_calls calls e).encoded_size ≤ e.buf_len := by
  induction calls with
  | nil => intro e _ h1 h2 h3; exact ⟨h1, h2, h3⟩
  | cons c cs ih =>
    intro e hmode h1 h2 h3
    obtain ⟨g1, g2, g3, g4, g5⟩ := emit_invariant e c.encoding hmode h1 h2 h3
    simp only [run_calls, run_eq_emit]
    have := ih (emit e c.encoding).2 g1 g3 g4 (by rw [g2]; exact g5)
    rw [g2] at this
    exact this

/-- A materializing session with room for a whole sequence of calls accepts them all:
the counter grows by the cumulative length and the sink receives exactly the wire bytes. -/
theorem run_calls_fits (calls : List CborCall) :
    ∀ e : MemfaultCborEncoder, e.compute_size_only = false →
      e.encoded_size + encoded_length calls ≤ e.buf_len →
      (run_calls calls e).encoded_size = e.encoded_size + encoded_length calls ∧
      sink_bytes (run_calls calls e).sink = sink_bytes e.sink ++ encoded_bytes calls := by
  induction calls with
  | nil => intro e _ _; simp [run_calls, encoded_length, encoded_bytes]
  | cons c cs ih =>
    intro e hmode hfit
    simp only [encoded_length] at hfit
    have hroom : ¬ e.encoded_size + c.encoding.length > e.buf_len := by omega
    have hstep : (emit e c.encoding).2 =
        { e with encoded_size := e.encoded_size + c.encoding.length
                 sink := e.sink ++ [(e.encoded_size, c.encoding)] } := by
      simp [emit, hmode, hroom]
    simp only [run_calls, run_eq_emit, hstep, encoded_length, encoded_bytes]
    obtain ⟨h1, h2⟩ := ih { e with encoded_size := e.encoded_size + c.encoding.length
                                   sink := e.sink ++ [(e.encoded_size, c.encoding)] }
      hmode (by simp only; omega)
    refine ⟨by rw [h1]; simp only; omega, ?_⟩
    rw [h2, sink_bytes_append, List.append_assoc]

/-- A size-only session counts the cumulative length and never invokes the sink. -/
theorem run_calls_size_only (calls : List CborCall) :
    ∀ e : MemfaultCborEncoder, e.compute_size_only = true →
      (run_calls calls e).encoded_size = e.encoded_size + encoded_length calls ∧
      (run_calls calls e).sink = e.sink := by
  induction calls with
  | nil => intro e _; simp [run_calls, encoded_length]
  | cons c cs ih =>
    intro e hmode
    have hstep : (emit e c.encoding).2 =
        { e with encoded_size := e.encoded_size + c.encoding.length } := by
      simp [emit, hmode]
    simp only [run_calls, run_eq_emit, hstep, encoded_length]
    obtain ⟨h1, h2⟩ := ih { e with encoded_size := e.encoded_size + c.encoding.length } hmode
    exact ⟨by rw [h1]; simp only; omega, h2⟩

/-- C11: for every 32-bit unsigned `value`, `memfault_cbor_encode_unsigned_integer` on a
session with room succeeds and emits exactly 1 byte when `value ≤ 23`, 2 bytes when
`24 ≤ value ≤ 255`, 3 bytes when `256 ≤ value ≤ 65535` and 5 bytes when `value ≥ 65536`:
the counter grows by that much and a materializing session hands exactly these bytes to
the sink; a value up to 23 is carried inline and otherwise the bytes after the header
are the big-endian magnitude. -/
theorem unsigned_integer_minimal_length (encoder : MemfaultCborEncoder) (value : Nat)
    (hv : value < 4294967296)
    (hroom : encoder.compute_size_only = true ∨ encoder.encoded_size + 5 ≤ encoder.buf_len) :
    (memfault_cbor_encode_unsigned_integer encoder value).1 = true ∧
    (memfault_cbor_encode_unsigned_integer encoder value).2.encoded_size =
      encoder.encoded_size + (encode_head 0 value).length ∧
    (encoder.compute_size_only = false →
      (memfault_cbor_encode_unsigned_integer encoder value).2.sink =
        encoder.sink ++ [(encoder.encoded_size, encode_head 0 value)]) ∧
    (encode_head 0 value).length =
      (if value ≤ 23 then 1 else if value ≤ 255 then 2 else if value ≤ 65535 then 3 else 5) ∧
    (value ≤ 23 → encode_head 0 value = [value]) ∧
    (24 ≤ value → big_endian (encode_head 0 value).tail = value) ∧
    (∀ b ∈ encode_head 0 value, b < 256) := by
  have hlen : (encode_head 0 value).length =
      (if value ≤ 23 then 1 else if value ≤ 255 then 2 else if value ≤ 65535 then 3 else 5) := by
    unfold encode_head
    split_ifs <;> rfl
  have hle : (encode_head 0 value).length ≤ 5 := by
    rw [hlen]; split_ifs <;> omega
  refine ⟨?_, ?_, ?_, hlen, ?_, ?_, ?_⟩
  · rcases hroom with h | h
    · simp [memfault_cbor_encode_unsigned_integer, emit, h]
    · have : ¬ encoder.encoded_size + (encode_head 0 value).length > encoder.buf_len := by omega
      unfold memfault_cbor_encode_unsigned_integer emit
      split_ifs <;> rfl
  · rcases hroom with h | h
    · simp [memfault_cbor_encode_unsigned_integer, emit, h]
    · have : ¬ encoder.encoded_size + (encode_head 0 value).length > encoder.buf_len := by omega
      unfold memfault_cbor_encode_unsigned_integer emit
      split_ifs <;> rfl
  · intro hmode
    have h : encoder.encoded_size + 5 ≤ encoder.buf_len := by
      rcases hroom with h | h
      · rw [hmode] at h; exact absurd h (by decide)
      · exact h
    have : ¬ encoder.encoded_size + (encode_head 0 value).length > encoder.buf_len := by omega
    simp [memfault_cbor_encode_unsigned_integer, emit, hmode, this]
  · intro h
    simp [encode_head, h]
  · intro h
    unfold encode_head
    split_ifs with h1 h2 h3
    · omega
    · simp [big_endian]
    · simp only [List.tail_cons, big_endian, List.length_cons, List.length_nil]
      omega
    · simp only [List.tail_cons, big_endian, List.length_cons, List.length_nil]
      omega
  · intro b hb
    unfold encode_head at hb
    split_ifs at hb with h1 h2 h3
    · simp at hb; omega
    · simp at hb; omega
    · simp at hb; omega
    · simp at hb; omega

/-- C11 at work: 65536 on a materializing session of capacity 16 gives the five bytes
`1A 00 01 00 00`. -/
theorem unsigned_integer_minimal_length_witness :
    (memfault_cbor_encode_unsigned_integer (memfault_cbor_encoder_init 16) 65536).1 = true ∧
    (memfault_cbor_encode_unsigned_integer (memfault_cbor_encoder_init 16) 65536).2.sink =
      [(0, [26, 0, 1, 0, 0])] ∧
    (encode_head 0 65536).length = 5 ∧
    big_endian (encode_head 0 65536).tail = 65536 :=
  have h := unsigned_integer_minimal_length (memfault_cbor_encoder_init 16) 65536 (by decide)
    (Or.inr (by decide))
  ⟨h.1, h.2.2.1 rfl, h.2.2.2.1, h.2.2.2.2.2.1 (by decide)⟩

/-- The boundary values the specification lists: 23 gives 1 byte, 24 and 255 give 2 bytes,
256 and 65535 give 3 bytes, 65536 gives 5 bytes. -/
theorem unsigned_integer_boundary_lengths :
    (memfault_cbor_encoder_deinit (memfault_cbor_encode_unsigned_integer
      memfault_cbor_encoder_size_only_init 23).2).1 = 1 ∧
    (memfault_cbor_encoder_deinit (memfault_cbor_encode_unsigned_integer
      memfault_cbor_encoder_size_only_init 24).2).1 = 2 ∧
    (memfault_cbor_encoder_deinit (memfault_cbor_encode_unsigned_integer
      memfault_cbor_encoder_size_only_init 255).2).1 = 2 ∧
    (memfault_cbor_encoder_deinit (memfault_cbor_encode_unsigned_integer
      memfault_cbor_encoder_size_only_init 256).2).1 = 3 ∧
    (memfault_cbor_encoder_deinit (memfault_cbor_encode_unsigned_integer
      memfault_cbor_encoder_size_only_init 65535).2).1 = 3 ∧
    (memfault_cbor_encoder_deinit (memfault_cbor_encode_unsigned_integer
      memfault_cbor_encoder_size_only_init 65536).2).1 = 5 := by
  decide

/-- C12: in a materializing session an emitting operation whose bytes would take the
counter above `buf_len` returns `false` and leaves the session, sink and counter
included, as it was; after any sequence of calls on a session initialised with capacity
`buf_len` the sink has received at most `buf_len` bytes; and in a size-only session every
emitting operation returns `true`. -/
theorem encoder_capacity_ceiling (buf_len : Nat) (calls : List CborCall)
    (encoder : MemfaultCborEncoder) (c : CborCall) :
    (encoder.compute_size_only = false →
      encoder.encoded_size + c.encoding.length > encoder.buf_len →
      c.run encoder = (false, encoder)) ∧
    (sink_bytes (run_calls calls (memfault_cbor_encoder_init buf_len)).sink).length ≤ buf_len ∧
    (run_calls calls (memfault_cbor_encoder_init buf_len)).encoded_size ≤ buf_len ∧
    (encoder.compute_size_only = true → (c.run encoder).1 = true) := by
  refine ⟨?_, ?_, ?_, ?_⟩
  · intro hmode hover
    simp [run_eq_emit, emit, hmode, hover]
  · obtain ⟨h1, -, h3⟩ := run_calls_invariant calls (memfault_cbor_encoder_init buf_len) rfl rfl
      rfl (Nat.zero_le _)
    rw [h1]
    exact h3
  · exact (run_calls_invariant calls (memfault_cbor_encoder_init buf_len) rfl rfl rfl
      (Nat.zero_le _)).2.2
  · intro hmode
    simp [run_eq_emit, emit, hmode]

/-- C13: for every sequence of calls whose cumulative encoded length is at most the
capacity, `deinit` of the materializing session returns exactly that length; the sink
has received exactly that many bytes, the wire bytes of the sequence, at sequential
offsets from 0; and `deinit` of a size-only session driven by the same calls returns the
same length without the sink having been invoked. -/
theorem encoder_size_agreement (buf_len : Nat) (calls : List CborCall)
    (hfit : encoded_length calls ≤ buf_len) :
    (memfault_cbor_encoder_deinit
      (run_calls calls (memfault_cbor_encoder_init buf_len))).1 = encoded_length calls ∧
    (sink_bytes (run_calls calls (memfault_cbor_encoder_init buf_len)).sink).length =
      encoded_length calls ∧
    sink_bytes (run_calls calls (memfault_cbor_encoder_init buf_len)).sink =
      encoded_bytes calls ∧
    sink_sequential 0 (run_calls calls (memfault_cbor_encoder_init buf_len)).sink = true ∧
    (memfault_cbor_encoder_deinit
      (run_calls calls memfault_cbor_encoder_size_only_init)).1 = encoded_length calls ∧
    (run_calls calls memfault_cbor_encoder_size_only_init).sink = [] := by
  obtain ⟨h1, h2⟩ := run_calls_fits calls (memfault_cbor_encoder_init buf_len) rfl
    (by simp only [memfault_cbor_encoder_init]; omega)
  obtain ⟨g1, g2, -⟩ := run_calls_invariant calls (memfault_cbor_encoder_init buf_len) rfl rfl
    rfl (Nat.zero_le _)
  obtain ⟨k1, k2⟩ := run_calls_size_only calls memfault_cbor_encoder_size_only_init rfl
  have hsize : (run_calls calls (memfault_cbor_encoder_init buf_len)).encoded_size =
      encoded_length calls := by
    rw [h1]; simp [memfault_cbor_encoder_init]
  refine ⟨hsize, by rw [g1, hsize], ?_, g2, ?_, k2⟩
  · rw [h2]; simp [memfault_cbor_encoder_init, sink_bytes]
  · show (run_calls calls memfault_cbor_encoder_size_only_init).encoded_size = _
    rw [k1]; simp [memfault_cbor_encoder_size_only_init]

/-- C13 at work: a map header, a text key, a number and a byte string, 12 bytes in all,
on a session of capacity 12. -/
theorem encoder_size_agreement_witness :
    (memfault_cbor_encoder_deinit
      (run_calls [CborCall.dictionary_begin 2, CborCall.string [97, 98, 0, 99],
          CborCall.unsigned_integer 1000, CborCall.byte_string [1, 2, 3, 4]]
        (memfault_cbor_encoder_init 12))).1 = 12 ∧
    (run_calls [CborCall.dictionary_begin 2, CborCall.string [97, 98, 0, 99],
        CborCall.unsigned_integer 1000, CborCall.byte_string [1, 2, 3, 4]]
      (memfault_cbor_encoder_init 12)).sink =
      [(0, [162]), (1, [98, 97, 98]), (4, [25, 3, 232]), (7, [68, 1, 2, 3, 4])] ∧
    (memfault_cbor_encoder_deinit
      (run_calls [CborCall.dictionary_begin 2, CborCall.string [97, 98, 0, 99],
          CborCall.unsigned_integer 1000, CborCall.byte_string [1, 2, 3, 4]]
        memfault_cbor_encoder_size_only_init)).1 = 12 :=
  have h := encoder_size_agreement 12
    [CborCall.dictionary_begin 2, CborCall.string [97, 98, 0, 99],
      CborCall.unsigned_integer 1000, CborCall.byte_string [1, 2, 3, 4]] (by decide)
  ⟨h.1, by decide, h.2.2.2.2.1⟩

end MemfaultCbor

namespace Cc32xx

/-! ## The calls a write issues -/

/-- The macro `MEMFAULT_MIN` is the minimum. -/
theorem MEMFAULT_MIN_eq_min (a b : Nat) : MEMFAULT_MIN a b = min a b := by
  unfold MEMFAULT_MIN
  split_ifs <;> omega

/-- The macro `MEMFAULT_FLOOR` with alignment 4, the way the plan writes it. -/
theorem MEMFAULT_FLOOR_four (a : Nat) : MEMFAULT_FLOOR a 4 = 4 * (a / 4) := by
  unfold MEMFAULT_FLOOR
  omega

/-- The word spliced for a head or tail step depends only on the four flash bytes read
back. -/
theorem spliced_word_congr (E : Env) (c at_ n : Nat) (src : Nat → Nat) (s1 s : Flash)
    (h : ∀ i, i < 4 → s1.mem ((COREDUMP_FLASH_BASE E + c) % 4294967296 + i) =
      s.mem ((COREDUMP_FLASH_BASE E + c) % 4294967296 + i)) :
    (List.range 4).map (memcpy
        (memfault_platform_coredump_storage_read E c E.word_indeterminate 4 s1).2 at_ src n) =
      (List.range 4).map (memcpy
        (memfault_platform_coredump_storage_read E c E.word_indeterminate 4 s).2 at_ src n) := by
  apply List.map_congr_left
  intro i hi
  have hi4 : i < 4 := List.mem_range.mp hi
  by_cases hchk : (c + 4) % 4294967296 > COREDUMP_STORAGE_SIZE E
  · simp [memcpy, memfault_platform_coredump_storage_read, hchk]
  · simp [memcpy, memfault_platform_coredump_storage_read, hchk, hi4, h i hi4]

/-- The tail step issues its one program call iff data remains. -/
theorem write_tail_log (E : Env) (data : Nat → Nat) (rv : Int) (n ro c : Nat) (s : Flash)
    (hfit : COREDUMP_FLASH_BASE E + COREDUMP_STORAGE_SIZE E < 4294967296)
    (hb : c + n ≤ COREDUMP_STORAGE_SIZE E) :
    (write_tail E data rv n ro c s).2.log = s.log ++
      (if n > 0 then
        [FlashCall.program (COREDUMP_FLASH_BASE E + c)
          ((List.range 4).map (memcpy
            (memfault_platform_coredump_storage_read E c E.word_indeterminate 4 s).2
            0 (fun i => data (ro + i)) n))
          4 false (E.status s.log.length)]
      else []) := by
  have haddr : (COREDUMP_FLASH_BASE E + c) % 4294967296 = COREDUMP_FLASH_BASE E + c := by omega
  by_cases h0 : n = 0
  · simp [write_tail, h0]
  · have hpos : n > 0 := by omega
    simp only [write_tail, if_pos h0, ne_eq, not_false_eq_true, if_pos hpos, prv_program_log,
      haddr]

/-- The interior step and the tail step issue the calls of the plan up to the first
failure. -/
theorem write_interior_log (E : Env) (data : Nat → Nat) (rv : Int) (n ro c : Nat) (s : Flash)
    (hfit : COREDUMP_FLASH_BASE E + COREDUMP_STORAGE_SIZE E < 4294967296)
    (hb : c + n ≤ COREDUMP_STORAGE_SIZE E) :
    (write_interior E data rv n ro c s).2.log = s.log ++ issued
      ((if 4 * (n / 4) > 0 then
        [FlashCall.program (COREDUMP_FLASH_BASE E + c)
          ((List.range (4 * (n / 4))).map (fun i => data (ro + i))) (4 * (n / 4)) false
          (E.status s.log.length)]
      else []) ++
      (if n - 4 * (n / 4) > 0 then
        [FlashCall.program (COREDUMP_FLASH_BASE E + (c + 4 * (n / 4)))
          ((List.range 4).map (memcpy
            (memfault_platform_coredump_storage_read E (c + 4 * (n / 4)) E.word_indeterminate
              4 s).2
            0 (fun i => data (ro + 4 * (n / 4) + i)) (n - 4 * (n / 4))))
          4 false (E.status (if 4 * (n / 4) > 0 then s.log.length + 1 else s.log.length))]
      else [])) := by
  have haddr : (COREDUMP_FLASH_BASE E + c) % 4294967296 = COREDUMP_FLASH_BASE E + c := by omega
  have hcur : (c + 4 * (n / 4)) % 4294967296 = c + 4 * (n / 4) := by omega
  have haddr2 : (COREDUMP_FLASH_BASE E + (c + 4 * (n / 4))) % 4294967296 =
      COREDUMP_FLASH_BASE E + (c + 4 * (n / 4)) := by omega
  by_cases hm : 4 * (n / 4) > 0
  · by_cases hst : E.status s.log.length = 0
    · have hnot : ¬ (prv_program E (fun i => data (ro + i)) c (4 * (n / 4)) s).1 ≠ 0 := by
        simp [prv_program_status, hst]
      have hlen : (prv_program E (fun i => data (ro + i)) c (4 * (n / 4)) s).2.log.length =
          s.log.length + 1 := by
        simp [prv_program_log]
      simp only [write_interior, MEMFAULT_FLOOR_four, if_pos hm, if_neg hnot, hcur]
      have hw := spliced_word_congr E (c + 4 * (n / 4)) 0 (n - 4 * (n / 4))
        (fun i => data (ro + 4 * (n / 4) + i))
        (prv_program E (fun i => data (ro + i)) c (4 * (n / 4)) s).2 s
        (fun i _ => prv_program_mem_outside E _ _ _ _ _ (by omega))
      rw [write_tail_log E data _ _ _ _ _ hfit (by omega), hw, hlen, prv_program_log, haddr]
      by_cases ht : n - 4 * (n / 4) > 0
      · simp [issued, FlashCall.rv, hst, ht]
      · simp [issued, FlashCall.rv, hst, ht]
    · have hnot : (prv_program E (fun i => data (ro + i)) c (4 * (n / 4)) s).1 ≠ 0 := by
        simp [prv_program_status, hst]
      simp only [write_interior, MEMFAULT_FLOOR_four, if_pos hm, if_pos hnot, prv_program_log,
        haddr]
      simp [issued, FlashCall.rv, hst]
  · have hn : n - 4 * (n / 4) = n := by omega
    have h0 : 4 * (n / 4) = 0 := by omega
    simp only [write_interior, MEMFAULT_FLOOR_four, if_neg hm]
    rw [write_tail_log E data _ _ _ _ _ hfit hb, h0]
    by_cases ht : n > 0
    · simp [issued, ht]
    · simp [issued, ht]


/-- An accepted write issues exactly the calls of its plan, in order, up to and including
the first one that fails. -/
theorem write_log (E : Env) (offset : Nat) (data : Nat → Nat) (data_len : Nat) (s : Flash)
    (hfit : COREDUMP_FLASH_BASE E + COREDUMP_STORAGE_SIZE E < 4294967296)
    (hb : offset + data_len ≤ COREDUMP_STORAGE_SIZE E) :
    (memfault_platform_coredump_storage_write E offset data data_len s).2.log =
      s.log ++ issued (write_plan E offset data data_len s) := by
  have hs := storage_size_lt E
  have hnb : ¬ ((offset + data_len) % 4294967296 > COREDUMP_STORAGE_SIZE E) := by omega
  by_cases hr : offset % 4 ≠ 0
  · have hr0 : ¬ offset % 4 = 0 := hr
    have hmin : min (4 - offset % 4) data_len ≤ data_len ∧
        min (4 - offset % 4) data_len ≤ 4 - offset % 4 ∧
        (data_len - min (4 - offset % 4) data_len > 0 →
          min (4 - offset % 4) data_len = 4 - offset % 4) := by omega
    obtain ⟨hl1, hl2, hl3⟩ := hmin
    have haddr : (COREDUMP_FLASH_BASE E + (offset - offset % 4)) % 4294967296 =
        COREDUMP_FLASH_BASE E + (offset - offset % 4) := by omega
    have hcur : (offset + min (4 - offset % 4) data_len) % 4294967296 =
        offset + min (4 - offset % 4) data_len := by omega
    obtain ⟨W, hW⟩ : ∃ W, W = memcpy (memfault_platform_coredump_storage_read E
        (offset - offset % 4) E.word_indeterminate 4 s).2 (offset % 4) data
        (min (4 - offset % 4) data_len) := ⟨_, rfl⟩
    by_cases hst : E.status s.log.length = 0
    · have hnot : ¬ (prv_program E W (offset - offset % 4) 4 s).1 ≠ 0 := by
        simp [prv_program_status, hst]
      have hlen : (prv_program E W (offset - offset % 4) 4 s).2.log.length =
          s.log.length + 1 := by
        simp [prv_program_log]
      simp only [memfault_platform_coredump_storage_write, if_neg hnb, if_pos hr,
        MEMFAULT_MIN_eq_min, ← hW, if_neg hnot, hcur]
      rw [write_interior_log E data _ _ _ _ _ hfit (by omega), hlen]
      simp only [write_plan, plan_head, plan_interior, plan_tail, if_neg hr0, if_pos hr, ← hW]
      by_cases ht : data_len - min (4 - offset % 4) data_len -
          4 * ((data_len - min (4 - offset % 4) data_len) / 4) > 0
      · have hw := spliced_word_congr E
          (offset + min (4 - offset % 4) data_len +
            4 * ((data_len - min (4 - offset % 4) data_len) / 4)) 0
          (data_len - min (4 - offset % 4) data_len -
            4 * ((data_len - min (4 - offset % 4) data_len) / 4))
          (fun i => data (0 + min (4 - offset % 4) data_len +
            4 * ((data_len - min (4 - offset % 4) data_len) / 4) + i))
          (prv_program E W (offset - offset % 4) 4 s).2 s
          (fun i _ => prv_program_mem_outside E _ _ _ _ _ (by
            have := hl3 (by omega)
            omega))
        rw [hw, prv_program_log, haddr]
        simp [issued, FlashCall.rv, hst, List.append_assoc]
      · rw [prv_program_log, haddr]
        simp [issued, FlashCall.rv, hst, ht, List.append_assoc]
    · have hnot : (prv_program E W (offset - offset % 4) 4 s).1 ≠ 0 := by
        simp [prv_program_status, hst]
      simp only [memfault_platform_coredump_storage_write, if_neg hnb, if_pos hr,
        MEMFAULT_MIN_eq_min, ← hW, if_pos hnot, prv_program_log, haddr]
      simp [write_plan, plan_head, hr0, ← hW, issued, FlashCall.rv, hst]
  · have hr0 : offset % 4 = 0 := by omega
    simp only [memfault_platform_coredump_storage_write, if_neg hnb, if_neg hr]
    rw [write_interior_log E data _ _ _ _ _ hfit hb]
    simp [write_plan, plan_head, plan_interior, plan_tail, hr0]


/-- Every issued call is a planned call. -/
theorem issued_subset (l : List FlashCall) : ∀ c ∈ issued l, c ∈ l := by
  induction l with
  | nil => intro c hc; simp [issued] at hc
  | cons x xs ih =>
    intro c hc
    simp only [issued] at hc
    split_ifs at hc with hx
    · simp only [List.mem_singleton] at hc
      subst hc
      exact List.mem_cons_self _ _
    · rcases List.mem_cons.mp hc with h | h
      · subst h
        exact List.mem_cons_self _ _
      · exact List.mem_cons_of_mem _ (ih c h)

/-- When every planned call succeeds, all of them are issued. -/
theorem issued_of_all_ok (l : List FlashCall) (h : ∀ c ∈ l, c.rv = 0) : issued l = l := by
  induction l with
  | nil => rfl
  | cons x xs ih =>
    have hx : x.rv = 0 := h x (List.mem_cons_self _ _)
    simp only [issued, hx, ne_eq, not_true_eq_false, if_false]
    rw [ih (fun c hc => h c (List.mem_cons_of_mem _ hc))]

/-- Every planned call carries a status of a flash operation not earlier than the
current end of the log. -/
theorem write_plan_status (E : Env) (offset : Nat) (data : Nat → Nat) (len : Nat) (s : Flash) :
    ∀ c ∈ write_plan E offset data len s, ∃ k, s.log.length ≤ k ∧ c.rv = E.status k := by
  intro c hc
  simp only [write_plan, List.mem_append] at hc
  rcases hc with hc | hc | hc
  · by_cases hr : offset % 4 ≠ 0
    · rw [if_pos hr, List.mem_singleton] at hc
      exact ⟨_, Nat.le_refl _, by rw [hc]; rfl⟩
    · rw [if_neg hr] at hc
      exact absurd hc (List.not_mem_nil _)
  · by_cases hm : plan_interior offset len > 0
    · rw [if_pos hm, List.mem_singleton] at hc
      refine ⟨_, ?_, by rw [hc]; rfl⟩
      split_ifs <;> omega
    · rw [if_neg hm] at hc
      exact absurd hc (List.not_mem_nil _)
  · by_cases ht : plan_tail offset len > 0
    · rw [if_pos ht, List.mem_singleton] at hc
      refine ⟨_, ?_, by rw [hc]; rfl⟩
      split_ifs <;> omega
    · rw [if_neg ht] at hc
      exact absurd hc (List.not_mem_nil _)

/-- The arithmetic of the plan: the three parts add up, the tail is shorter than a word,
the interior is a whole number of words, the head stays inside the first word, and
whatever follows the head starts word-aligned. -/
theorem plan_facts (offset len : Nat) :
    plan_head offset len + plan_interior offset len + plan_tail offset len = len ∧
    plan_tail offset len < 4 ∧
    plan_interior offset len % 4 = 0 ∧
    (offset % 4 = 0 → plan_head offset len = 0) ∧
    (offset % 4 ≠ 0 → plan_head offset len ≤ 4 - offset % 4) ∧
    (len - plan_head offset len > 0 → (offset + plan_head offset len) % 4 = 0) := by
  unfold plan_tail plan_interior plan_head
  split_ifs <;> omega

/-- C14: for a write with `offset + data_len ≤ capacity` whose program calls all succeed,
with `r = offset % 4`, `h = plan_head` (`0` if `r = 0`, else `min (4 - r) data_len`),
`m = plan_interior` (`4 * floor((data_len - h) / 4)`) and `t = plan_tail`
(`data_len - h - m`): `h + m + t = data_len`, `t < 4`, and the flash calls issued are
exactly those of `write_plan`, in order: a 4-byte program at `offset - r` iff `r ≠ 0`, an
`m`-byte program at `offset + h` iff `m > 0`, a 4-byte program at `offset + h + m` iff
`t > 0`, each returning 0; after the head either no data remains or the current offset is
word-aligned, and every byte of `data` ends up programmed at its place. -/
theorem write_follows_plan (E : Env) (offset : Nat) (data : Nat → Nat) (data_len : Nat)
    (s : Flash) (hwf : E.WellFormed)
    (hb : offset + data_len ≤ COREDUMP_STORAGE_SIZE E)
    (hok : ∀ k, s.log.length ≤ k → E.status k = 0) :
    plan_head offset data_len + plan_interior offset data_len + plan_tail offset data_len =
      data_len ∧
    plan_tail offset data_len < 4 ∧
    (memfault_platform_coredump_storage_write E offset data data_len s).2.log =
      s.log ++ write_plan E offset data data_len s ∧
    (∀ c ∈ write_plan E offset data data_len s, c.rv = 0) ∧
    (data_len - plan_head offset data_len = 0 ∨
      (offset + plan_head offset data_len) % 4 = 0) ∧
    (∀ i, i < data_len →
      (memfault_platform_coredump_storage_write E offset data data_len s).2.mem
          (COREDUMP_FLASH_BASE E + offset + i) =
        s.mem (COREDUMP_FLASH_BASE E + offset + i) &&& data i) := by
  have hfit := region_fits E hwf
  have hall : ∀ c ∈ write_plan E offset data data_len s, c.rv = 0 := by
    intro c hc
    obtain ⟨k, hk, hrv⟩ := write_plan_status E offset data data_len s c hc
    rw [hrv]
    exact hok k hk
  obtain ⟨hsum, htail, -, -, -, halign⟩ := plan_facts offset data_len
  refine ⟨hsum, htail, ?_, hall, ?_, ?_⟩
  · rw [write_log E offset data data_len s hfit hb, issued_of_all_ok _ hall]
  · by_cases hz : data_len - plan_head offset data_len = 0
    · exact Or.inl hz
    · exact Or.inr (halign (by omega))
  · obtain ⟨calls, -, heff, -, -, -⟩ := write_post E offset data data_len s hfit hb
    intro i hi
    rw [(heff hok).1 _ (by omega) (by omega)]
    congr 2
    omega

/-- C14 at work: ten bytes at offset 3 of erased flash are written as a head word, an
8-byte interior and a tail word. -/
theorem write_follows_plan_witness :
    plan_head 3 10 = 1 ∧ plan_interior 3 10 = 8 ∧ plan_tail 3 10 = 1 ∧
    (memfault_platform_coredump_storage_write envOk 3 dataCount 10 flashErased).2.log =
      [FlashCall.program 16777216 [255, 255, 255, 1] 4 false 0,
       FlashCall.program 16777220 [2, 3, 4, 5, 6, 7, 8, 9] 8 false 0,
       FlashCall.program 16777228 [10, 255, 255, 255] 4 false 0] :=
  have h := write_follows_plan envOk 3 dataCount 10 flashErased (by decide) (by decide)
    (fun _ _ => rfl)
  ⟨by decide, by decide, by decide, h.2.2.1.trans (by decide)⟩

/-- C15: on a region whose capacity is a multiple of 4, every flash call a write with
`offset + data_len ≤ capacity` issues is a program call that targets a storage offset
that is a multiple of 4, passes a byte count that is a positive multiple of 4 (and as
many payload bytes), and lies within `[0, capacity)`; and the internal read-back of the
head word at `offset - r` (made when `r ≠ 0`) and of the tail word at `offset + h + m`
(made when `t > 0`) is in bounds, so that read returns `true` whatever the flash holds. -/
theorem program_calls_well_formed (E : Env) (offset : Nat) (data : Nat → Nat) (data_len : Nat)
    (s : Flash) (hwf : E.WellFormed) (h4 : 4 ∣ COREDUMP_STORAGE_SIZE E)
    (hb : offset + data_len ≤ COREDUMP_STORAGE_SIZE E) :
    (∀ c ∈ (memfault_platform_coredump_storage_write E offset data data_len s).2.log.drop
        s.log.length,
      ∃ o p cnt st, c = FlashCall.program (COREDUMP_FLASH_BASE E + o) p cnt false st ∧
        o % 4 = 0 ∧ 0 < cnt ∧ cnt % 4 = 0 ∧ o + cnt ≤ COREDUMP_STORAGE_SIZE E ∧
        p.length = cnt) ∧
    (offset % 4 ≠ 0 → ∀ buf st,
      (memfault_platform_coredump_storage_read E (offset - offset % 4) buf 4 st).1 = true) ∧
    (plan_tail offset data_len > 0 → ∀ buf st,
      (memfault_platform_coredump_storage_read E
        (offset + plan_head offset data_len + plan_interior offset data_len) buf 4 st).1
        = true) := by
  have hfit := region_fits E hwf
  have hs := storage_size_lt E
  obtain ⟨q, hq⟩ := h4
  obtain ⟨hsum, htail, hmod, hh0, hh1, halign⟩ := plan_facts offset data_len
  refine ⟨?_, ?_, ?_⟩
  · intro c hc
    rw [write_log E offset data data_len s hfit hb, List.drop_left] at hc
    have hc2 := issued_subset _ c hc
    simp only [write_plan, List.mem_append] at hc2
    rcases hc2 with hc2 | hc2 | hc2
    · by_cases hr : offset % 4 ≠ 0
      · rw [if_pos hr, List.mem_singleton] at hc2
        exact ⟨_, _, _, _, hc2, by omega, by omega, by omega, by omega, by simp⟩
      · rw [if_neg hr] at hc2
        exact absurd hc2 (List.not_mem_nil _)
    · by_cases hm : plan_interior offset data_len > 0
      · rw [if_pos hm, List.mem_singleton] at hc2
        exact ⟨_, _, _, _, hc2, halign (by omega), hm, hmod, by omega, by simp⟩
      · rw [if_neg hm] at hc2
        exact absurd hc2 (List.not_mem_nil _)
    · by_cases ht : plan_tail offset data_len > 0
      · rw [if_pos ht, List.mem_singleton] at hc2
        have hal := halign (by omega)
        exact ⟨_, _, _, _, hc2, by omega, by omega, by omega, by omega, by simp⟩
      · rw [if_neg ht] at hc2
        exact absurd hc2 (List.not_mem_nil _)
  · intro hr buf st
    have hnb : ¬ ((offset - offset % 4 + 4) % 4294967296 > COREDUMP_STORAGE_SIZE E) := by omega
    simp [memfault_platform_coredump_storage_read, hnb]
  · intro ht buf st
    have hal := halign (by omega)
    have hnb : ¬ ((offset + plan_head offset data_len + plan_interior offset data_len + 4)
        % 4294967296 > COREDUMP_STORAGE_SIZE E) := by omega
    simp [memfault_platform_coredump_storage_read, hnb]

/-- C15 at work: the three program calls of a ten-byte write at offset 3. -/
theorem program_calls_well_formed_witness :
    (∀ c ∈ (memfault_platform_coredump_storage_write envOk 3 dataCount 10
        flashErased).2.log.drop flashErased.log.length,
      ∃ o p cnt st, c = FlashCall.program (COREDUMP_FLASH_BASE envOk + o) p cnt false st ∧
        o % 4 = 0 ∧ 0 < cnt ∧ cnt % 4 = 0 ∧ o + cnt ≤ COREDUMP_STORAGE_SIZE envOk ∧
        p.length = cnt) ∧
    (3 % 4 ≠ 0 → ∀ buf st,
      (memfault_platform_coredump_storage_read envOk (3 - 3 % 4) buf 4 st).1 = true) ∧
    (plan_tail 3 10 > 0 → ∀ buf st,
      (memfault_platform_coredump_storage_read envOk
        (3 + plan_head 3 10 + plan_interior 3 10) buf 4 st).1 = true) :=
  program_calls_well_formed envOk 3 dataCount 10 flashErased (by decide) (by decide)
    (by decide)

/-- C16: `long rv` is never initialised. A write of length 0 at the word-aligned offset 0
issues no program call, so every call it issues returned 0, yet it returns `rv == 0` for
whatever the stack slot of `rv` holds: `false` when that is `1` (`envOk`), `true` when it
is `0` (`envOkRvZero`), the inputs, the flash and the controller being the same. -/
theorem write_result_reads_uninitialised_rv :
    0 + 0 ≤ COREDUMP_STORAGE_SIZE envOk ∧
    (memfault_platform_coredump_storage_write envOk 0 dataCount 0 flashErased).2.log = [] ∧
    (memfault_platform_coredump_storage_write envOk 0 dataCount 0 flashErased).1 = false ∧
    (memfault_platform_coredump_storage_write envOkRvZero 0 dataCount 0 flashErased).2.log
      = [] ∧
    (memfault_platform_coredump_storage_write envOkRvZero 0 dataCount 0 flashErased).1
      = true := by
  decide

/-- Apart from the empty write at a word-aligned offset, an accepted write whose program
calls all return 0 returns `true`. -/
theorem write_returns_true_when_calls_succeed (E : Env) (offset : Nat) (data : Nat → Nat)
    (data_len : Nat) (s : Flash) (hwf : E.WellFormed)
    (hb : offset + data_len ≤ COREDUMP_STORAGE_SIZE E)
    (hne : data_len ≠ 0 ∨ offset % 4 ≠ 0)
    (hok : ∀ k, s.log.length ≤ k → E.status k = 0) :
    (memfault_platform_coredump_storage_write E offset data data_len s).1 = true := by
  obtain ⟨calls, -, heff, -, -, -⟩ :=
    write_post E offset data data_len s (region_fits E hwf) hb
  apply (heff hok).2
  rcases hne with h | h
  · exact Or.inl h
  · exact Or.inr (Or.inl h)

end Cc32xx
